import Mathlib

/-!
Verification of the prediction-market event-sourcing core.

Part A is a shallow embedding of the replay machinery:
  - market/ledger.py   (Ledger.append)
  - market/exchange.py (Market, User, Exchange, full replay via from_ledger,
                        incremental replay via update_from_extended_ledger)

Modelling conventions for Part A:
  - A ledger entry is a JSON object; replay reads only a fixed set of fields.
    We model an entry as a record carrying exactly those fields (the nested
    "info" object is flattened).  Dates are modelled as integers (the code
    parses fixed-format date strings with strptime, an order-preserving
    injection into timestamps).  Monetary amounts are modelled as rationals.
    A discord id is `Option Int`: `none` models the empty-string default the
    writer uses, `some d` a numeric id (so the int(...) coercion applied by
    full replay is the identity in the model).
  - Python dicts are modelled as functions `Int → Option _`; dict equality in
    Python is key-by-key, which coincides with function equality.
  - Python exceptions are modelled by `Except Err`.  A bare `assert` raises
    an AssertionError that carries no data; `markets[k]` on a missing key
    raises KeyError k; the `case _: raise ValueError/NotImplementedError`
    branches carry the offending string.  On an assertion failure inside
    update_from_extended_ledger the Python object may be left partially
    mutated; the model only reports the error (no claim observes the
    post-error state).
-/

structure Shares where
  no : Int
  yes : Int
deriving DecidableEq

instance : Add Shares := ⟨fun a b => ⟨a.no + b.no, a.yes + b.yes⟩⟩

inductive MarketStatus where
  | open_
  | closed
  | resolved_yes
  | resolved_no
deriving DecidableEq

structure Market where
  id : Int
  question : String
  open_date : Int
  close_date : Int
  resolve_date : Option Int
  detailed_criteria : String
  liquidity : Int
  _status : MarketStatus
  shares : Shares
deriving DecidableEq

/-- `Market.status` property: terminal (resolved) statuses are returned as
recorded; an `open`/`closed` tag is re-derived from the clock. -/
def Market.status (m : Market) (now : Int) : MarketStatus :=
  if m._status ≠ MarketStatus.closed ∧ m._status ≠ MarketStatus.open_ then
    m._status
  else if m.open_date ≤ now ∧ now < m.close_date then
    MarketStatus.open_
  else
    MarketStatus.closed

/-- `Market.volume` property: `sum(self.shares)`. -/
def Market.volume (m : Market) : Int := m.shares.no + m.shares.yes

structure User where
  id : Int
  user_name : String
  balance : Rat
  positions : Int → Option Shares

/-- One ledger entry (one JSON line), restricted to the fields replay reads.
`seq` is the `#` field assigned by `Ledger.append`; replay never reads it. -/
structure Entry where
  type : String
  seq : Nat := 0
  market_id : Int := 0
  user_id : Int := 0
  question : String := ""
  open_date : Int := 0
  close_date : Int := 0
  resolve_date : Option Int := none
  detailed_criteria : String := ""
  liquidity : Int := 0
  status : String := ""
  user_name : String := ""
  discord_id : Option Int := none
  share_type : String := ""
  quantity : Int := 0
  new_balance : Rat := 0
deriving DecidableEq

/-- Python exceptions thrown during replay. -/
inductive Err where
  | keyError (k : Int)
  | assertionError
  | valueError (s : String)
  | notImplementedError (s : String)
deriving DecidableEq

/-- Error-propagating left fold: the loop bodies of the replay passes. -/
def foldE {σ : Type} (step : σ → Entry → Except Err σ) : σ → List Entry → Except Err σ
  | s, [] => .ok s
  | s, e :: es =>
    match step s e with
    | .error er => .error er
    | .ok s' => foldE step s' es

/-- The `match info["status"]` block of `_markets_from_ledger`;
the `case _` raises `ValueError(f"Unknown market status: ...")`. -/
def statusOfString (s : String) : Except Err MarketStatus :=
  match s with
  | "open" => .ok .open_
  | "closed" => .ok .closed
  | "resolved_yes" => .ok .resolved_yes
  | "resolved_no" => .ok .resolved_no
  | _ => .error (.valueError s)

/-- The market built from a `market_update` entry in the first loop of
`_markets_from_ledger`: metadata from the entry, shares initialised to 0. -/
def marketOfEntry (e : Entry) : Except Err Market :=
  match statusOfString e.status with
  | .error er => .error er
  | .ok st =>
    .ok { id := e.market_id, question := e.question, open_date := e.open_date,
          close_date := e.close_date, resolve_date := e.resolve_date,
          detailed_criteria := e.detailed_criteria, liquidity := e.liquidity,
          _status := st, shares := ⟨0, 0⟩ }

/-- Loop body of the first (reversed) loop of `_markets_from_ledger`:
skip non-`market_update` entries and ids already present. -/
def marketsPass1Step (markets : Int → Option Market) (e : Entry) :
    Except Err (Int → Option Market) :=
  if e.type ≠ "market_update" then .ok markets
  else if (markets e.market_id).isSome then .ok markets
  else
    match marketOfEntry e with
    | .error er => .error er
    | .ok m => .ok (Function.update markets e.market_id (some m))

/-- First loop of `_markets_from_ledger` (`for entry in reversed(...)`). -/
def marketsPass1 (entries : List Entry) : Except Err (Int → Option Market) :=
  foldE marketsPass1Step (fun _ => none) entries.reverse

/-- Loop body of the second (also reversed) loop of `_markets_from_ledger`:
accumulate trade quantities into market inventories, asserting ≥ 0. -/
def marketsPass2Step (markets : Int → Option Market) (e : Entry) :
    Except Err (Int → Option Market) :=
  if e.type ≠ "trade" then .ok markets
  else
    match markets e.market_id with
    | none => .error (.keyError e.market_id)
    | some m =>
      if e.share_type = "No" then
        let no' := m.shares.no + e.quantity
        if no' < 0 then .error .assertionError
        else .ok (Function.update markets e.market_id
          (some { m with shares := ⟨no', m.shares.yes⟩ }))
      else
        let yes' := m.shares.yes + e.quantity
        if yes' < 0 then .error .assertionError
        else .ok (Function.update markets e.market_id
          (some { m with shares := ⟨m.shares.no, yes'⟩ }))

namespace Exchange

/-- `Exchange._markets_from_ledger`. -/
def _markets_from_ledger (entries : List Entry) : Except Err (Int → Option Market) :=
  match marketsPass1 entries with
  | .error er => .error er
  | .ok markets => foldE marketsPass2Step markets entries.reverse

end Exchange

structure UsersPass1State where
  users : Int → Option User
  discord_user_ids : Int → Option Int

/-- The user built from a `user_update` entry in the first loop of
`_users_from_ledger`: name from the entry, balance 0, positions empty. -/
def userOfEntry (e : Entry) : User :=
  ⟨e.user_id, e.user_name, 0, fun _ => none⟩

/-- Loop body of the first (reversed) loop of `_users_from_ledger`:
most recent `user_update` wins; balance 0, positions empty; the discord map
is only written for a newly seen user with a truthy discord_id. -/
def usersPass1Step (st : UsersPass1State) (e : Entry) : UsersPass1State :=
  if e.type ≠ "user_update" then st
  else if (st.users e.user_id).isSome then st
  else
    let users' := Function.update st.users e.user_id (some (userOfEntry e))
    match e.discord_id with
    | some d => ⟨users', Function.update st.discord_user_ids d (some e.user_id)⟩
    | none => ⟨users', st.discord_user_ids⟩

/-- First loop of `_users_from_ledger`; it cannot raise. -/
def usersPass1 (entries : List Entry) : UsersPass1State :=
  entries.reverse.foldl usersPass1Step ⟨fun _ => none, fun _ => none⟩

/-- Loop body of the second (forward) loop of `_users_from_ledger`:
`balance_update` sets the balance; `trade`/`resolution` accumulate the
position (asserting ≥ 0) and set the balance to the carried new_balance. -/
def usersPass2BalanceStep (users : Int → Option User) (e : Entry) :
    Except Err (Int → Option User) :=
  if e.type = "balance_update" then
    match users e.user_id with
    | none => .error (.keyError e.user_id)
    | some u => .ok (Function.update users e.user_id
        (some { u with balance := e.new_balance }))
  else .ok users

def usersPass2TradeStep (users : Int → Option User) (e : Entry) :
    Except Err (Int → Option User) :=
  if e.type = "trade" ∨ e.type = "resolution" then
    match users e.user_id with
    | none => .error (.keyError e.user_id)
    | some u =>
      let s := (u.positions e.market_id).getD ⟨0, 0⟩
      if e.share_type = "Yes" then
        let yes' := s.yes + e.quantity
        if yes' < 0 then .error .assertionError
        else .ok (Function.update users e.user_id (some { u with
          balance := e.new_balance,
          positions := Function.update u.positions e.market_id (some ⟨s.no, yes'⟩) }))
      else
        let no' := s.no + e.quantity
        if no' < 0 then .error .assertionError
        else .ok (Function.update users e.user_id (some { u with
          balance := e.new_balance,
          positions := Function.update u.positions e.market_id (some ⟨no', s.yes⟩) }))
  else .ok users

def usersPass2Step (users : Int → Option User) (e : Entry) :
    Except Err (Int → Option User) :=
  match usersPass2BalanceStep users e with
  | .error er => .error er
  | .ok users' => usersPass2TradeStep users' e

namespace Exchange

/-- `Exchange._users_from_ledger`. -/
def _users_from_ledger (entries : List Entry) :
    Except Err ((Int → Option User) × (Int → Option Int)) :=
  match foldE usersPass2Step (usersPass1 entries).users entries with
  | .error er => .error er
  | .ok users => .ok (users, (usersPass1 entries).discord_user_ids)

end Exchange

/-- The `Exchange` aggregate (the backing ledger handle is passed explicitly
to the replay functions instead of being stored). -/
structure Exchange where
  _markets : Int → Option Market
  _users : Int → Option User
  _discord_user_ids : Int → Option Int
  _ledger_index : Nat

namespace Exchange

/-- `Exchange.from_ledger`: full replay. -/
def from_ledger (entries : List Entry) : Except Err Exchange :=
  match _markets_from_ledger entries with
  | .error er => .error er
  | .ok markets =>
    match _users_from_ledger entries with
    | .error er => .error er
    | .ok ud => .ok ⟨markets, ud.1, ud.2, entries.length⟩

/-- Loop body of `Exchange.update_from_extended_ledger`. -/
def updateStep (ex : Exchange) (e : Entry) : Except Err Exchange :=
  match e.type with
  | "user_update" =>
    let bp : Rat × (Int → Option Shares) :=
      match ex._users e.user_id with
      | some u => (u.balance, u.positions)
      | none => (0, fun _ => none)
    let u : User := ⟨e.user_id, e.user_name, bp.1, bp.2⟩
    let users' := Function.update ex._users e.user_id (some u)
    let discord' :=
      match e.discord_id with
      | some d => Function.update ex._discord_user_ids d (some e.user_id)
      | none => ex._discord_user_ids
    .ok { ex with _users := users', _discord_user_ids := discord' }
  | "balance_update" =>
    match ex._users e.user_id with
    | none => .error (.keyError e.user_id)
    | some u =>
      let users' := Function.update ex._users e.user_id
        (some { u with balance := e.new_balance })
      .ok { ex with _users := users' }
  | "trade" =>
    match ex._users e.user_id, ex._markets e.market_id with
    | some u, some m =>
      if e.new_balance < 0 then .error .assertionError
      else if e.share_type ≠ "Yes" ∧ e.share_type ≠ "No" then .error .assertionError
      else
        let pos := (u.positions e.market_id).getD ⟨0, 0⟩
        let upd : Int × Int × Int × Int :=
          if e.share_type = "No" then
            (m.shares.no + e.quantity, m.shares.yes, pos.no + e.quantity, pos.yes)
          else
            (m.shares.no, m.shares.yes + e.quantity, pos.no, pos.yes + e.quantity)
        if upd.1 < 0 ∨ upd.2.1 < 0 then .error .assertionError
        else if upd.2.2.1 < 0 ∨ upd.2.2.2 < 0 then .error .assertionError
        else .ok { ex with
          _markets := Function.update ex._markets e.market_id
            (some { m with shares := ⟨upd.1, upd.2.1⟩ }),
          _users := Function.update ex._users e.user_id (some { u with
            balance := e.new_balance,
            positions := Function.update u.positions e.market_id
              (some ⟨upd.2.2.1, upd.2.2.2⟩) }) }
    | _, _ => .error .assertionError
  | t => .error (.notImplementedError t)

/-- `Exchange.update_from_extended_ledger`: incremental replay of
`entries[self._ledger_index:]`, then the cursor is set to the log length. -/
def update_from_extended_ledger (ex : Exchange) (entries : List Entry) :
    Except Err Exchange :=
  match foldE updateStep ex (entries.drop ex._ledger_index) with
  | .error er => .error er
  | .ok ex' => .ok { ex' with _ledger_index := entries.length }

end Exchange

/-- The append-only event log (`market/ledger.py`); only the entry list is
modelled (the timestamp field and the durable file write are I/O). -/
structure Ledger where
  entries : List Entry

/-- `Ledger.append`: assigns the next sequence number to the event, appends
it, and returns `None` (the Python function has no return statement); the
second component is the Python return value. -/
def Ledger.append (l : Ledger) (event : Entry) : Ledger × Option Nat :=
  (⟨l.entries ++ [{ event with seq := l.entries.length }]⟩, none)

/-- A sequence of appends starting from a given ledger. -/
def Ledger.appendAll (l : Ledger) : List Entry → Ledger
  | [] => l
  | e :: es => Ledger.appendAll (l.append e).1 es

/-! ### Generic facts about the replay folds -/

theorem foldE_nil {σ : Type} (step : σ → Entry → Except Err σ) (s : σ) :
    foldE step s [] = .ok s := rfl

theorem foldE_cons {σ : Type} (step : σ → Entry → Except Err σ) (s : σ)
    (e : Entry) (es : List Entry) :
    foldE step s (e :: es) =
      match step s e with
      | .error er => .error er
      | .ok s' => foldE step s' es := rfl

theorem foldE_append {σ : Type} (step : σ → Entry → Except Err σ) (s : σ)
    (l₁ l₂ : List Entry) :
    foldE step s (l₁ ++ l₂) =
      match foldE step s l₁ with
      | .error er => .error er
      | .ok s' => foldE step s' l₂ := by
  induction l₁ generalizing s with
  | nil => rfl
  | cons e es ih =>
    rw [List.cons_append, foldE_cons, foldE_cons]
    cases step s e with
    | error er => rfl
    | ok s' => exact ih s'

/-- A fold whose steps all leave the state unchanged returns it unchanged. -/
theorem foldE_skip {σ : Type} {step : σ → Entry → Except Err σ} {s : σ}
    {es : List Entry} (h : ∀ e ∈ es, step s e = .ok s) :
    foldE step s es = .ok s := by
  induction es with
  | nil => rfl
  | cons e es ih =>
    rw [foldE_cons, h e (List.mem_cons_self e es)]
    exact ih (fun f hf => h f (List.mem_cons_of_mem e hf))

theorem foldl_skip {σ : Type} {step : σ → Entry → σ} {s : σ}
    {es : List Entry} (h : ∀ e ∈ es, step s e = s) :
    es.foldl step s = s := by
  induction es with
  | nil => rfl
  | cons e es ih =>
    rw [List.foldl_cons, h e (List.mem_cons_self e es)]
    exact ih (fun f hf => h f (List.mem_cons_of_mem e hf))

/-- An invariant preserved by each successful step holds after a successful
fold. -/
theorem foldE_invariant {σ : Type} {step : σ → Entry → Except Err σ}
    (P : σ → Prop)
    (hstep : ∀ s e s', P s → step s e = .ok s' → P s')
    {s s' : σ} {es : List Entry}
    (hs : P s) (hfold : foldE step s es = .ok s') : P s' := by
  induction es generalizing s with
  | nil => exact (Except.ok.injEq _ _ ▸ hfold : s = s') ▸ hs
  | cons e es ih =>
    rw [foldE_cons] at hfold
    cases hstep' : step s e with
    | error er => rw [hstep'] at hfold; exact absurd hfold (by simp)
    | ok s₁ =>
      rw [hstep'] at hfold
      exact ih (hstep s e s₁ hs hstep') hfold

theorem foldl_invariant {σ : Type} {step : σ → Entry → σ} (P : σ → Prop)
    (hstep : ∀ s e, P s → P (step s e))
    {s : σ} {es : List Entry} (hs : P s) : P (es.foldl step s) := by
  induction es generalizing s with
  | nil => exact hs
  | cons e es ih => exact ih (hstep s e hs)

/-! ### Concrete entries and states used by witnesses and counterexamples -/

def cMU : Entry := { type := "market_update", market_id := 1, status := "open", liquidity := 10 }

def cUU : Entry := { type := "user_update", user_id := 7, user_name := "alice" }

def cNegBalTrade : Entry :=
  { type := "trade", user_id := 7, market_id := 1, share_type := "Yes",
    quantity := 1, new_balance := -5 }

def cLateTrade : Entry :=
  { type := "trade", user_id := 7, market_id := 1, share_type := "Yes",
    quantity := 1, new_balance := 10 }

def cBogus : Entry := { type := "mystery" }

def emptyExchange : Exchange := ⟨fun _ => none, fun _ => none, fun _ => none, 0⟩

def cOpenMarket : Market :=
  { id := 1, question := "q", open_date := 0, close_date := 10, resolve_date := none,
    detailed_criteria := "", liquidity := 10, _status := .open_, shares := ⟨0, 0⟩ }

/-! ### C7: sequence numbers assigned by Ledger.append -/

theorem appendAll_entries_map_seq (evs : List Entry) (l : Ledger) :
    (Ledger.appendAll l evs).entries.map Entry.seq =
      l.entries.map Entry.seq ++ List.range' l.entries.length evs.length := by
  induction evs generalizing l with
  | nil => simp [Ledger.appendAll]
  | cons e es ih =>
    rw [Ledger.appendAll, ih]
    simp [Ledger.append, List.range'_succ]

/-- C7 counterexample: the claim states that append returns the assigned
sequence number to the caller; the Python function body has no return
statement, so it returns None (modelled as the second component). -/
theorem C7_counterexample :
    (Ledger.append ⟨[]⟩ { type := "user_update" }).2 = none := rfl

/-- C7 (amended): `Ledger.append` assigns the event the sequence number
`len(entries)`, appends exactly one entry, and returns None (not the
sequence number); across any sequence of appends from an empty log the
assigned sequence numbers are exactly 0, 1, 2, ... — unique, strictly
increasing, never reused. -/
theorem C7_append_assigns_next_sequence :
    (∀ (l : Ledger) (e : Entry),
      (l.append e).1.entries = l.entries ++ [{ e with seq := l.entries.length }] ∧
      (l.append e).1.entries.length = l.entries.length + 1 ∧
      (l.append e).2 = none) ∧
    (∀ evs : List Entry,
      (Ledger.appendAll ⟨[]⟩ evs).entries.map Entry.seq = List.range evs.length) := by
  constructor
  · intro l e
    refine ⟨rfl, by simp [Ledger.append], rfl⟩
  · intro evs
    rw [appendAll_entries_map_seq, List.range_eq_range']
    simp

/-! ### C9: the status property -/

/-- C9: a recorded terminal (resolved) status is always returned; for an
Open-tagged market the status is Open exactly when open_date ≤ now <
close_date and Closed otherwise. -/
theorem C9_status_time_derivation :
    ∀ (m : Market) (now : Int),
      ((m._status = MarketStatus.resolved_yes ∨ m._status = MarketStatus.resolved_no) →
        m.status now = m._status) ∧
      (m._status = MarketStatus.open_ →
        ((m.status now = MarketStatus.open_ ↔ m.open_date ≤ now ∧ now < m.close_date) ∧
         (¬(m.open_date ≤ now ∧ now < m.close_date) →
            m.status now = MarketStatus.closed))) := by
  intro m now
  constructor
  · intro h
    rcases h with h | h <;> simp [Market.status, h]
  · intro h
    by_cases hw : m.open_date ≤ now ∧ now < m.close_date
    · constructor
      · simp [Market.status, h, hw]
      · intro hw'; exact absurd hw hw'
    · constructor
      · simp [Market.status, h, hw]
      · intro _; simp [Market.status, h, hw]

theorem C9_witness :
    cOpenMarket._status = MarketStatus.open_ ∧
    cOpenMarket.status 5 = MarketStatus.open_ :=
  ⟨rfl, ((C9_status_time_derivation cOpenMarket 5).2 rfl).1.mpr ⟨by decide, by decide⟩⟩

/-! ### C6: unknown event kinds -/

/-- C6 counterexample: the claim states that full replay raises on an
unknown event kind; full replay silently skips it and succeeds. -/
theorem C6_counterexample :
    (Exchange.from_ledger [cBogus]).isOk = true := rfl

/-- C6 (amended): only incremental replay rejects an unhandled event kind,
raising NotImplementedError naming the kind (but not the sequence number);
full replay silently skips unknown kinds, its passes filtering only for the
kinds they handle, and succeeds with nothing derived from such entries. -/
theorem C6_unknown_kind :
    (∀ (ex : Exchange) (entries : List Entry) (e : Entry) (rest : List Entry),
      entries.drop ex._ledger_index = e :: rest →
      e.type ≠ "user_update" → e.type ≠ "balance_update" → e.type ≠ "trade" →
      Exchange.update_from_extended_ledger ex entries =
        .error (.notImplementedError e.type)) ∧
    (∀ entries : List Entry,
      (∀ e ∈ entries, e.type ≠ "market_update" ∧ e.type ≠ "user_update" ∧
        e.type ≠ "balance_update" ∧ e.type ≠ "trade" ∧ e.type ≠ "resolution") →
      Exchange.from_ledger entries =
        .ok ⟨fun _ => none, fun _ => none, fun _ => none, entries.length⟩) := by
  constructor
  · intro ex entries e rest hdrop h1 h2 h3
    have hstep : Exchange.updateStep ex e = .error (.notImplementedError e.type) := by
      unfold Exchange.updateStep
      split <;> simp_all
    unfold Exchange.update_from_extended_ledger
    rw [hdrop, foldE_cons, hstep]
  · intro entries h
    have hm1 : marketsPass1 entries = .ok (fun _ => none) := by
      unfold marketsPass1
      exact foldE_skip (fun e he => by
        have := h e (List.mem_reverse.mp he)
        simp [marketsPass1Step, this.1])
    have hm2 : foldE marketsPass2Step (fun _ => none) entries.reverse =
        .ok (fun _ => none) :=
      foldE_skip (fun e he => by
        have := h e (List.mem_reverse.mp he)
        simp [marketsPass2Step, this.2.2.2.1])
    have hu1 : usersPass1 entries = ⟨fun _ => none, fun _ => none⟩ := by
      unfold usersPass1
      exact foldl_skip (fun e he => by
        have := h e (List.mem_reverse.mp he)
        simp [usersPass1Step, this.2.1])
    have hu2 : foldE usersPass2Step (fun _ => none) entries = .ok (fun _ => none) :=
      foldE_skip (fun e he => by
        have := h e he
        simp [usersPass2Step, usersPass2BalanceStep, usersPass2TradeStep,
          this.2.2.1, this.2.2.2.1, this.2.2.2.2])
    unfold Exchange.from_ledger Exchange._markets_from_ledger Exchange._users_from_ledger
    simp only [hm1, hm2, hu1, hu2]

theorem C6_witness :
    Exchange.update_from_extended_ledger emptyExchange [cBogus] =
      .error (.notImplementedError "mystery") ∧
    Exchange.from_ledger [cBogus] =
      .ok ⟨fun _ => none, fun _ => none, fun _ => none, 1⟩ :=
  ⟨C6_unknown_kind.1 emptyExchange [cBogus] cBogus [] rfl (by decide) (by decide) (by decide),
   C6_unknown_kind.2 [cBogus] (by decide)⟩

/-! ### Counterexamples for C1, C2, C10 -/

/-- C1 counterexample: at split point C = 0 on the one-entry log [cMU],
full replay succeeds while incremental replay of the suffix raises
NotImplementedError (market_update is not handled incrementally), so the two
replay routes are not equal for every split point. -/
theorem C1_counterexample :
    (Exchange.from_ledger [cMU]).isOk = true ∧
    ((Exchange.from_ledger (List.take 0 [cMU])).bind
        (fun ex => Exchange.update_from_extended_ledger ex [cMU])) =
      .error (.notImplementedError "market_update") := ⟨rfl, rfl⟩

/-- C2 counterexample: a trade that drives the user's balance negative
(new_balance = -5) is accepted by full replay without any error — the
balance is not checked during full replay, contradicting the claim that a
violation raises at the offending event. -/
theorem C2_counterexample :
    ((Exchange.from_ledger [cMU, cUU, cNegBalTrade]).toOption.bind
        (fun ex => ex._users 7)).map User.balance = some (-5) := by decide

/-- C10 counterexample: a trade whose market and user are upserted only
AFTER the trade (so never by any prior event) replays successfully, because
the metadata pass scans the whole log before quantities are folded; the
claim that such a log raises a failed key lookup is false. -/
theorem C10_counterexample :
    (Exchange.from_ledger [cLateTrade, cMU, cUU]).isOk = true := by decide

/-! ### C8: pass 1 is last-writer-wins metadata, with zero quantities -/

def isMarketUpdateFor (k : Int) (e : Entry) : Bool :=
  e.type == "market_update" && e.market_id == k

def isUserUpdateFor (uid : Int) (e : Entry) : Bool :=
  e.type == "user_update" && e.user_id == uid

theorem marketsPass1_fold_char (es : List Entry) (M M' : Int → Option Market)
    (h : foldE marketsPass1Step M es = .ok M') (k : Int) :
    M' k = (M k).orElse (fun _ =>
      (es.find? (isMarketUpdateFor k)).bind (fun e => (marketOfEntry e).toOption)) := by
  induction es generalizing M with
  | nil =>
    rw [foldE_nil] at h
    obtain rfl : M = M' := by injection h
    cases hk : M k <;> rfl
  | cons e es ih =>
    rw [foldE_cons] at h
    by_cases htype : e.type ≠ "market_update"
    · have hstep : marketsPass1Step M e = .ok M := by simp [marketsPass1Step, htype]
      rw [hstep] at h
      have hfind : ¬ isMarketUpdateFor k e = true := by
        simp [isMarketUpdateFor]
        intro hc
        exact absurd hc htype
      rw [List.find?_cons_of_neg _ hfind]
      exact ih M h
    · push_neg at htype
      by_cases hmem : (M e.market_id).isSome
      · have hstep : marketsPass1Step M e = .ok M := by
          simp [marketsPass1Step, htype, hmem]
        rw [hstep] at h
        by_cases hk : k = e.market_id
        · subst hk
          obtain ⟨m, hm⟩ := Option.isSome_iff_exists.mp hmem
          rw [ih M h, hm]
          rfl
        · have hfind : ¬ isMarketUpdateFor k e = true := by
            simp [isMarketUpdateFor, htype]
            intro hc
            exact absurd hc.symm hk
          rw [List.find?_cons_of_neg _ hfind]
          exact ih M h
      · cases hparse : marketOfEntry e with
        | error er =>
          have hstep : marketsPass1Step M e = .error er := by
            simp [marketsPass1Step, htype, hmem, hparse]
          rw [hstep] at h
          exact absurd h (by simp)
        | ok m =>
          have hstep : marketsPass1Step M e =
              .ok (Function.update M e.market_id (some m)) := by
            simp [marketsPass1Step, htype, hmem, hparse]
          rw [hstep] at h
          by_cases hk : k = e.market_id
          · subst hk
            have hfind : isMarketUpdateFor e.market_id e = true := by
              simp [isMarketUpdateFor, htype]
            rw [List.find?_cons_of_pos _ hfind]
            have hMk : M e.market_id = none := by
              cases hMk : M e.market_id
              · rfl
              · rw [hMk] at hmem; simp at hmem
            rw [ih _ h, Function.update_same, hMk]
            simp [hparse, Except.toOption]
          · have hfind : ¬ isMarketUpdateFor k e = true := by
              simp [isMarketUpdateFor, htype]
              intro hc
              exact absurd hc.symm hk
            rw [List.find?_cons_of_neg _ hfind, ih _ h,
              Function.update_noteq hk]

theorem usersPass1Step_users (st : UsersPass1State) (e : Entry) :
    (usersPass1Step st e).users =
      if e.type ≠ "user_update" then st.users
      else if (st.users e.user_id).isSome then st.users
      else Function.update st.users e.user_id (some (userOfEntry e)) := by
  unfold usersPass1Step
  by_cases h1 : e.type ≠ "user_update"
  · simp [h1]
  · by_cases h2 : (st.users e.user_id).isSome
    · simp [h1, h2]
    · simp only [h1, h2]
      cases e.discord_id <;> simp

theorem usersPass1_fold_char (es : List Entry) (st : UsersPass1State) (uid : Int) :
    (es.foldl usersPass1Step st).users uid =
      (st.users uid).orElse (fun _ =>
        (es.find? (isUserUpdateFor uid)).map userOfEntry) := by
  induction es generalizing st with
  | nil =>
    rw [List.foldl_nil]
    cases hk : st.users uid <;> rfl
  | cons e es ih =>
    rw [List.foldl_cons, ih]
    by_cases htype : e.type ≠ "user_update"
    · have hstep : (usersPass1Step st e).users = st.users := by
        rw [usersPass1Step_users]
        simp [htype]
      have hfind : ¬ isUserUpdateFor uid e = true := by
        simp [isUserUpdateFor]
        intro hc
        exact absurd hc htype
      rw [hstep, List.find?_cons_of_neg _ hfind]
    · push_neg at htype
      by_cases hmem : (st.users e.user_id).isSome
      · have hstep : (usersPass1Step st e).users = st.users := by
          rw [usersPass1Step_users]
          simp [htype, hmem]
        rw [hstep]
        by_cases hk : uid = e.user_id
        · subst hk
          obtain ⟨u, hu⟩ := Option.isSome_iff_exists.mp hmem
          rw [hu]
          rfl
        · have hfind : ¬ isUserUpdateFor uid e = true := by
            simp [isUserUpdateFor, htype]
            intro hc
            exact absurd hc.symm hk
          rw [List.find?_cons_of_neg _ hfind]
      · have hstep : (usersPass1Step st e).users =
            Function.update st.users e.user_id (some (userOfEntry e)) := by
          rw [usersPass1Step_users]
          simp [htype, hmem]
        rw [hstep]
        by_cases hk : uid = e.user_id
        · subst hk
          have hfind : isUserUpdateFor e.user_id e = true := by
            simp [isUserUpdateFor, htype]
          have hMk : st.users e.user_id = none := by
            cases hMk : st.users e.user_id
            · rfl
            · rw [hMk] at hmem; simp at hmem
          rw [List.find?_cons_of_pos _ hfind, Function.update_same, hMk]
          rfl
        · have hfind : ¬ isUserUpdateFor uid e = true := by
            simp [isUserUpdateFor, htype]
            intro hc
            exact absurd hc.symm hk
          rw [List.find?_cons_of_neg _ hfind, Function.update_noteq hk]

/-- C8: in full replay, pass 1 is last-writer-wins on metadata with all
quantities left at zero: under success, the derived market map sends every
id k to the market built (with shares (0,0)) from the most recent
market_update for k (the first hit scanning the reversed log), and none if
there is no such event; the derived user map sends every id to the user
built (balance 0, empty positions) from its most recent user_update.  For
logs produced by Ledger.append, position in the log equals the sequence
number, so most recent means highest sequence number. -/
theorem C8_pass1_last_writer_wins :
    (∀ entries : List Entry,
      (marketsPass1 entries).isOk = true →
      marketsPass1 entries = .ok (fun k =>
        (entries.reverse.find? (isMarketUpdateFor k)).bind
          (fun e => (marketOfEntry e).toOption))) ∧
    (∀ (entries : List Entry) (uid : Int),
      (usersPass1 entries).users uid =
        (entries.reverse.find? (isUserUpdateFor uid)).map userOfEntry) := by
  constructor
  · intro entries h
    cases heq : marketsPass1 entries with
    | error er => rw [heq] at h; simp [Except.isOk, Except.toBool] at h
    | ok M =>
      congr 1
      funext k
      have := marketsPass1_fold_char entries.reverse (fun _ => none) M heq k
      rw [this]
      rfl
  · intro entries uid
    have := usersPass1_fold_char entries.reverse ⟨fun _ => none, fun _ => none⟩ uid
    rw [usersPass1, this]
    rfl

theorem C8_witness :
    (marketsPass1 [cMU]).isOk = true ∧
    marketsPass1 [cMU] = .ok (fun k =>
      ([cMU].reverse.find? (isMarketUpdateFor k)).bind
        (fun e => (marketOfEntry e).toOption)) :=
  ⟨rfl, C8_pass1_last_writer_wins.1 [cMU] rfl⟩

/-! ### C2: invariants checked (and not checked) during replay -/

/-- All derived market inventories are non-negative. -/
def MarketsNonneg (M : Int → Option Market) : Prop :=
  ∀ k m, M k = some m → 0 ≤ m.shares.no ∧ 0 ≤ m.shares.yes

/-- All derived user positions are non-negative. -/
def UsersPosNonneg (U : Int → Option User) : Prop :=
  ∀ uid u, U uid = some u → ∀ k s, u.positions k = some s → 0 ≤ s.no ∧ 0 ≤ s.yes

theorem marketOfEntry_shares {e : Entry} {m : Market}
    (h : marketOfEntry e = .ok m) : m.shares = ⟨0, 0⟩ := by
  unfold marketOfEntry at h
  cases hs : statusOfString e.status <;> rw [hs] at h
  · exact absurd h (by simp)
  · injection h with h
    rw [← h]

theorem marketsPass1Step_nonneg (M : Int → Option Market) (e : Entry)
    (M' : Int → Option Market) (hP : MarketsNonneg M)
    (h : marketsPass1Step M e = .ok M') : MarketsNonneg M' := by
  unfold marketsPass1Step at h
  by_cases h1 : e.type ≠ "market_update"
  · rw [if_pos h1] at h; injection h with h; exact h ▸ hP
  · rw [if_neg h1] at h
    by_cases h2 : (M e.market_id).isSome
    · rw [if_pos h2] at h; injection h with h; exact h ▸ hP
    · rw [if_neg h2] at h
      cases hp : marketOfEntry e <;> rw [hp] at h
      · exact absurd h (by simp)
      · injection h with h
        intro k m hk
        rw [← h] at hk
        by_cases hkk : k = e.market_id
        · rw [hkk, Function.update_same] at hk
          injection hk with hk
          rw [← hk, marketOfEntry_shares hp]
          exact ⟨le_refl 0, le_refl 0⟩
        · rw [Function.update_noteq hkk] at hk
          exact hP k m hk

theorem marketsPass2Step_nonneg (M : Int → Option Market) (e : Entry)
    (M' : Int → Option Market) (hP : MarketsNonneg M)
    (h : marketsPass2Step M e = .ok M') : MarketsNonneg M' := by
  unfold marketsPass2Step at h
  by_cases h1 : e.type ≠ "trade"
  · rw [if_pos h1] at h; injection h with h; exact h ▸ hP
  · rw [if_neg h1] at h
    split at h
    next hm => exact absurd h (by simp)
    next m hm =>
      have hmm := hP e.market_id m hm
      split at h
      next hst =>
        dsimp only at h
        split at h
        next hneg => exact absurd h (by simp)
        next hneg =>
          injection h with h
          intro k m' hk
          rw [← h] at hk
          by_cases hkk : k = e.market_id
          · rw [hkk, Function.update_same] at hk
            injection hk with hk
            rw [← hk]
            exact ⟨le_of_not_lt hneg, hmm.2⟩
          · rw [Function.update_noteq hkk] at hk
            exact hP k m' hk
      next hst =>
        dsimp only at h
        split at h
        next hneg => exact absurd h (by simp)
        next hneg =>
          injection h with h
          intro k m' hk
          rw [← h] at hk
          by_cases hkk : k = e.market_id
          · rw [hkk, Function.update_same] at hk
            injection hk with hk
            rw [← hk]
            exact ⟨hmm.1, le_of_not_lt hneg⟩
          · rw [Function.update_noteq hkk] at hk
            exact hP k m' hk

theorem usersPass1Step_posNonneg (st : UsersPass1State) (e : Entry)
    (hP : UsersPosNonneg st.users) : UsersPosNonneg (usersPass1Step st e).users := by
  rw [usersPass1Step_users]
  by_cases h1 : e.type ≠ "user_update"
  · rw [if_pos h1]; exact hP
  · rw [if_neg h1]
    by_cases h2 : (st.users e.user_id).isSome
    · rw [if_pos h2]; exact hP
    · rw [if_neg h2]
      intro uid u hu
      by_cases hkk : uid = e.user_id
      · rw [hkk, Function.update_same] at hu
        injection hu with hu
        rw [← hu]
        intro k s hs
        exact absurd hs (by simp [userOfEntry])
      · rw [Function.update_noteq hkk] at hu
        exact hP uid u hu

theorem usersPass2BalanceStep_posNonneg (U : Int → Option User) (e : Entry)
    (U' : Int → Option User) (hP : UsersPosNonneg U)
    (h : usersPass2BalanceStep U e = .ok U') : UsersPosNonneg U' := by
  unfold usersPass2BalanceStep at h
  split at h
  · split at h
    next hu => exact absurd h (by simp)
    next u hu =>
      injection h with h
      intro uid u' hu'
      rw [← h] at hu'
      by_cases hkk : uid = e.user_id
      · rw [hkk, Function.update_same] at hu'
        injection hu' with hu'
        rw [← hu']
        exact hP e.user_id u hu
      · rw [Function.update_noteq hkk] at hu'
        exact hP uid u' hu'
  · injection h with h; exact h ▸ hP

theorem usersPass2TradeStep_posNonneg (U : Int → Option User) (e : Entry)
    (U' : Int → Option User) (hP : UsersPosNonneg U)
    (h : usersPass2TradeStep U e = .ok U') : UsersPosNonneg U' := by
  unfold usersPass2TradeStep at h
  split at h
  case isFalse => injection h with h; exact h ▸ hP
  case isTrue =>
    split at h
    next hu => exact absurd h (by simp)
    next u hu =>
      have hpos : ∀ k s, u.positions k = some s → 0 ≤ s.no ∧ 0 ≤ s.yes :=
        hP e.user_id u hu
      have hgetD : 0 ≤ ((u.positions e.market_id).getD ⟨0, 0⟩).no ∧
          0 ≤ ((u.positions e.market_id).getD ⟨0, 0⟩).yes := by
        cases hpk : u.positions e.market_id
        · exact ⟨le_refl 0, le_refl 0⟩
        next s₀ => simpa using hpos e.market_id s₀ hpk
      split at h <;> dsimp only at h
      all_goals
        split at h
      case _ => exact absurd h (by simp)
      case _ hneg =>
        injection h with h
        intro uid u' hu'
        rw [← h] at hu'
        by_cases hkk : uid = e.user_id
        · rw [hkk, Function.update_same] at hu'
          injection hu' with hu'
          rw [← hu']
          intro k s hs
          dsimp only at hs
          by_cases hkm : k = e.market_id
          · rw [hkm, Function.update_same] at hs
            injection hs with hs
            rw [← hs]
            exact ⟨hgetD.1, le_of_not_lt hneg⟩
          · rw [Function.update_noteq hkm] at hs
            exact hpos k s hs
        · rw [Function.update_noteq hkk] at hu'
          exact hP uid u' hu'
      case _ => exact absurd h (by simp)
      case _ hneg =>
        injection h with h
        intro uid u' hu'
        rw [← h] at hu'
        by_cases hkk : uid = e.user_id
        · rw [hkk, Function.update_same] at hu'
          injection hu' with hu'
          rw [← hu']
          intro k s hs
          dsimp only at hs
          by_cases hkm : k = e.market_id
          · rw [hkm, Function.update_same] at hs
            injection hs with hs
            rw [← hs]
            exact ⟨le_of_not_lt hneg, hgetD.2⟩
          · rw [Function.update_noteq hkm] at hs
            exact hpos k s hs
        · rw [Function.update_noteq hkk] at hu'
          exact hP uid u' hu'

theorem usersPass2Step_posNonneg (U : Int → Option User) (e : Entry)
    (U' : Int → Option User) (hP : UsersPosNonneg U)
    (h : usersPass2Step U e = .ok U') : UsersPosNonneg U' := by
  unfold usersPass2Step at h
  cases hb : usersPass2BalanceStep U e with
  | error er => rw [hb] at h; exact absurd h (by simp)
  | ok U₁ =>
    rw [hb] at h
    exact usersPass2TradeStep_posNonneg U₁ e U'
      (usersPass2BalanceStep_posNonneg U e U₁ hP hb) h

/-- Inversion of a successful full replay into its passes. -/
theorem from_ledger_ok_elim {entries : List Entry} {ex : Exchange}
    (h : Exchange.from_ledger entries = .ok ex) :
    ∃ M₁, marketsPass1 entries = .ok M₁ ∧
      foldE marketsPass2Step M₁ entries.reverse = .ok ex._markets ∧
      foldE usersPass2Step (usersPass1 entries).users entries = .ok ex._users ∧
      ex._discord_user_ids = (usersPass1 entries).discord_user_ids ∧
      ex._ledger_index = entries.length := by
  unfold Exchange.from_ledger Exchange._markets_from_ledger
    Exchange._users_from_ledger at h
  cases h1 : marketsPass1 entries with
  | error er => rw [h1] at h; exact absurd h (by simp)
  | ok M₁ =>
    rw [h1] at h
    dsimp only at h
    cases h2 : foldE marketsPass2Step M₁ entries.reverse with
    | error er => rw [h2] at h; exact absurd h (by simp)
    | ok Mf =>
      rw [h2] at h
      dsimp only at h
      cases h3 : foldE usersPass2Step (usersPass1 entries).users entries with
      | error er => rw [h3] at h; exact absurd h (by simp)
      | ok Uf =>
        rw [h3] at h
        dsimp only at h
        obtain rfl : (⟨Mf, Uf, (usersPass1 entries).discord_user_ids,
            entries.length⟩ : Exchange) = ex := by injection h
        exact ⟨M₁, rfl, h2, rfl, rfl, rfl⟩

/-- C2 (amended): during full replay the market inventories and user
positions are guarded by assertions: a successful replay yields only
non-negative inventories and positions, and the fold aborts exactly at the
entry whose assertion fails (not later, never clamped) — the raised
AssertionError carries no sequence number, however, and the user pass scans
forward while the market pass scans in reverse log order.  The balance is
NOT checked during full replay (see the counterexample); only incremental
replay asserts new_balance ≥ 0. -/
theorem C2_replay_invariants :
    (∀ (entries : List Entry) (ex : Exchange),
      Exchange.from_ledger entries = .ok ex →
      MarketsNonneg ex._markets ∧ UsersPosNonneg ex._users) ∧
    (∀ (users : Int → Option User) (pre : List Entry) (e : Entry)
      (rest : List Entry) (u' : Int → Option User) (er : Err),
      foldE usersPass2Step users pre = .ok u' →
      usersPass2Step u' e = .error er →
      foldE usersPass2Step users (pre ++ e :: rest) = .error er) ∧
    (∀ (markets : Int → Option Market) (pre : List Entry) (e : Entry)
      (rest : List Entry) (M' : Int → Option Market) (er : Err),
      foldE marketsPass2Step markets pre = .ok M' →
      marketsPass2Step M' e = .error er →
      foldE marketsPass2Step markets (pre ++ e :: rest) = .error er) := by
  refine ⟨?_, ?_, ?_⟩
  · intro entries ex h
    obtain ⟨M₁, h1, h2, h3, _, _⟩ := from_ledger_ok_elim h
    constructor
    · have hM₁ : MarketsNonneg M₁ :=
        foldE_invariant MarketsNonneg marketsPass1Step_nonneg
          (fun k m hk => absurd hk (by simp)) h1
      exact foldE_invariant MarketsNonneg marketsPass2Step_nonneg hM₁ h2
    · have hU₁ : UsersPosNonneg (usersPass1 entries).users :=
        foldl_invariant (fun st => UsersPosNonneg st.users)
          (fun st e hP => usersPass1Step_posNonneg st e hP)
          (fun uid u hu => absurd hu (by simp))
      exact foldE_invariant UsersPosNonneg usersPass2Step_posNonneg hU₁ h3
  · intro users pre e rest u' er h1 h2
    rw [foldE_append, h1]
    dsimp only
    rw [foldE_cons, h2]
  · intro markets pre e rest M' er h1 h2
    rw [foldE_append, h1]
    dsimp only
    rw [foldE_cons, h2]

theorem C2_witness :
    (Exchange.from_ledger [] = .ok emptyExchange) ∧
    (∀ k m, emptyExchange._markets k = some m →
      0 ≤ m.shares.no ∧ 0 ≤ m.shares.yes) ∧
    foldE usersPass2Step (fun _ => none) ([] ++ cLateTrade :: []) =
      .error (.keyError 7) :=
  ⟨rfl, fun k m hk => ((C2_replay_invariants.1 [] emptyExchange rfl).1) k m hk,
   C2_replay_invariants.2.1 (fun _ => none) [] cLateTrade [] (fun _ => none)
     (.keyError 7) rfl rfl⟩

/-! ### C10: key lookups during replay -/

theorem marketsPass2Step_none_preserved {M M' : Int → Option Market} {e : Entry}
    (h : marketsPass2Step M e = .ok M') {k : Int} (hk : M k = none) :
    M' k = none := by
  unfold marketsPass2Step at h
  by_cases h1 : e.type ≠ "trade"
  · rw [if_pos h1] at h; injection h with h; exact h ▸ hk
  · rw [if_neg h1] at h
    split at h
    next => exact absurd h (by simp)
    next m hm =>
      by_cases hkk : k = e.market_id
      · rw [hkk, hm] at hk; exact absurd hk (by simp)
      · split at h <;> dsimp only at h <;> split at h <;>
          first
          | exact Except.noConfusion h
          | (injection h with h
             rw [← h, Function.update_noteq hkk]
             exact hk)

theorem marketsPass2Step_isSome {M M' : Int → Option Market} {e : Entry}
    (h : marketsPass2Step M e = .ok M') (k : Int) :
    (M' k).isSome = (M k).isSome := by
  unfold marketsPass2Step at h
  by_cases h1 : e.type ≠ "trade"
  · rw [if_pos h1] at h; injection h with h; rw [h]
  · rw [if_neg h1] at h
    split at h
    next => exact absurd h (by simp)
    next m hm =>
      split at h <;> dsimp only at h <;> split at h <;>
        first
        | exact Except.noConfusion h
        | (injection h with h
           rw [← h]
           by_cases hkk : k = e.market_id
           · rw [hkk, Function.update_same, hm]; rfl
           · rw [Function.update_noteq hkk])

/-- A trade on a market absent from the accumulator makes the share fold
fail (with the KeyError at that entry unless an earlier entry fails first). -/
theorem marketsPass2_fails_on_missing {es : List Entry} {e : Entry}
    (M : Int → Option Market) (he : e ∈ es) (ht : e.type = "trade")
    (hk : M e.market_id = none) :
    (foldE marketsPass2Step M es).isOk = false := by
  obtain ⟨s, t, rfl⟩ := List.append_of_mem he
  rw [foldE_append]
  cases hs : foldE marketsPass2Step M s with
  | error er => rfl
  | ok M' =>
    have hM' : M' e.market_id = none :=
      foldE_invariant (fun M => M e.market_id = none)
        (fun _ _ _ hP hstep => marketsPass2Step_none_preserved hstep hP) hk hs
    dsimp only
    rw [foldE_cons]
    have hstep : marketsPass2Step M' e = .error (.keyError e.market_id) := by
      unfold marketsPass2Step
      rw [if_neg (by simp [ht]), hM']
    rw [hstep]
    rfl

theorem marketOfEntry_isOk {e : Entry}
    (h : (statusOfString e.status).isOk = true) :
    ∃ m, marketOfEntry e = .ok m := by
  unfold marketOfEntry
  cases hs : statusOfString e.status with
  | error er => rw [hs] at h; simp [Except.isOk, Except.toBool] at h
  | ok st => exact ⟨_, rfl⟩

theorem marketsPass1_total (es : List Entry)
    (h : ∀ e ∈ es, e.type = "market_update" → (statusOfString e.status).isOk = true) :
    ∀ M, ∃ M', foldE marketsPass1Step M es = .ok M' := by
  induction es with
  | nil => exact fun M => ⟨M, rfl⟩
  | cons e es ih =>
    intro M
    have htail := fun f hf => h f (List.mem_cons_of_mem e hf)
    by_cases h1 : e.type ≠ "market_update"
    · have hstep : marketsPass1Step M e = .ok M := by simp [marketsPass1Step, h1]
      obtain ⟨M', hM'⟩ := ih htail M
      exact ⟨M', by rw [foldE_cons, hstep]; exact hM'⟩
    · push_neg at h1
      by_cases h2 : (M e.market_id).isSome
      · have hstep : marketsPass1Step M e = .ok M := by
          simp [marketsPass1Step, h1, h2]
        obtain ⟨M', hM'⟩ := ih htail M
        exact ⟨M', by rw [foldE_cons, hstep]; exact hM'⟩
      · obtain ⟨m, hm⟩ := marketOfEntry_isOk (h e (List.mem_cons_self e es) h1)
        have hstep : marketsPass1Step M e =
            .ok (Function.update M e.market_id (some m)) := by
          simp [marketsPass1Step, h1, h2, hm]
        obtain ⟨M', hM'⟩ := ih htail (Function.update M e.market_id (some m))
        exact ⟨M', by rw [foldE_cons, hstep]; exact hM'⟩

theorem marketsPass2_almost_total (es : List Entry) :
    ∀ M : Int → Option Market,
    (∀ e ∈ es, e.type = "trade" → (M e.market_id).isSome = true) →
    foldE marketsPass2Step M es = .error .assertionError ∨
      ∃ M', foldE marketsPass2Step M es = .ok M' := by
  induction es with
  | nil => exact fun M _ => .inr ⟨M, rfl⟩
  | cons e es ih =>
    intro M h
    by_cases h1 : e.type ≠ "trade"
    · have hstep : marketsPass2Step M e = .ok M := by simp [marketsPass2Step, h1]
      have := ih M (fun f hf => h f (List.mem_cons_of_mem e hf))
      rcases this with hl | ⟨M', hM'⟩
      · exact .inl (by rw [foldE_cons, hstep]; exact hl)
      · exact .inr ⟨M', by rw [foldE_cons, hstep]; exact hM'⟩
    · push_neg at h1
      obtain ⟨m, hm⟩ := Option.isSome_iff_exists.mp
        (h e (List.mem_cons_self e es) h1)
      by_cases hst : e.share_type = "No"
      · by_cases hneg : m.shares.no + e.quantity < 0
        · have hstep : marketsPass2Step M e = .error .assertionError := by
            simp [marketsPass2Step, h1, hm, hst, hneg]
          exact .inl (by rw [foldE_cons, hstep])
        · have hstep : marketsPass2Step M e = .ok (Function.update M e.market_id
              (some { m with shares := ⟨m.shares.no + e.quantity, m.shares.yes⟩ })) := by
            simp [marketsPass2Step, h1, hm, hst, hneg]
          have hdom : ∀ f ∈ es, f.type = "trade" →
              ((Function.update M e.market_id
                (some { m with shares := ⟨m.shares.no + e.quantity, m.shares.yes⟩ }))
                  f.market_id).isSome = true := by
            intro f hf htf
            by_cases hkk : f.market_id = e.market_id
            · rw [hkk, Function.update_same]; rfl
            · rw [Function.update_noteq hkk]
              exact h f (List.mem_cons_of_mem e hf) htf
          rcases ih _ hdom with hl | ⟨M', hM'⟩
          · exact .inl (by rw [foldE_cons, hstep]; exact hl)
          · exact .inr ⟨M', by rw [foldE_cons, hstep]; exact hM'⟩
      · by_cases hneg : m.shares.yes + e.quantity < 0
        · have hstep : marketsPass2Step M e = .error .assertionError := by
            simp [marketsPass2Step, h1, hm, hst, hneg]
          exact .inl (by rw [foldE_cons, hstep])
        · have hstep : marketsPass2Step M e = .ok (Function.update M e.market_id
              (some { m with shares := ⟨m.shares.no, m.shares.yes + e.quantity⟩ })) := by
            simp [marketsPass2Step, h1, hm, hst, hneg]
          have hdom : ∀ f ∈ es, f.type = "trade" →
              ((Function.update M e.market_id
                (some { m with shares := ⟨m.shares.no, m.shares.yes + e.quantity⟩ }))
                  f.market_id).isSome = true := by
            intro f hf htf
            by_cases hkk : f.market_id = e.market_id
            · rw [hkk, Function.update_same]; rfl
            · rw [Function.update_noteq hkk]
              exact h f (List.mem_cons_of_mem e hf) htf
          rcases ih _ hdom with hl | ⟨M', hM'⟩
          · exact .inl (by rw [foldE_cons, hstep]; exact hl)
          · exact .inr ⟨M', by rw [foldE_cons, hstep]; exact hM'⟩

theorem usersPass2BalanceStep_ok {U : Int → Option User} {e : Entry}
    (h : e.type = "balance_update" → (U e.user_id).isSome = true) :
    ∃ U₁, usersPass2BalanceStep U e = .ok U₁ ∧
      ∀ k, (U₁ k).isSome = (U k).isSome := by
  unfold usersPass2BalanceStep
  by_cases h1 : e.type = "balance_update"
  · obtain ⟨u, hu⟩ := Option.isSome_iff_exists.mp (h h1)
    rw [if_pos h1, hu]
    refine ⟨_, rfl, ?_⟩
    intro k
    by_cases hkk : k = e.user_id
    · rw [hkk, Function.update_same, hu]; rfl
    · rw [Function.update_noteq hkk]
  · rw [if_neg h1]
    exact ⟨U, rfl, fun _ => rfl⟩

theorem usersPass2TradeStep_almost {U : Int → Option User} {e : Entry}
    (h : e.type = "trade" ∨ e.type = "resolution" → (U e.user_id).isSome = true) :
    usersPass2TradeStep U e = .error .assertionError ∨
      ∃ U₁, usersPass2TradeStep U e = .ok U₁ ∧
        ∀ k, (U₁ k).isSome = (U k).isSome := by
  unfold usersPass2TradeStep
  by_cases h1 : e.type = "trade" ∨ e.type = "resolution"
  · obtain ⟨u, hu⟩ := Option.isSome_iff_exists.mp (h h1)
    rw [if_pos h1, hu]
    dsimp only
    have hupd : ∀ (u' : User),
        ∀ k, ((Function.update U e.user_id (some u')) k).isSome = (U k).isSome := by
      intro u' k
      by_cases hkk : k = e.user_id
      · rw [hkk, Function.update_same, hu]; rfl
      · rw [Function.update_noteq hkk]
    by_cases hst : e.share_type = "Yes"
    · rw [if_pos hst]
      by_cases hneg : ((u.positions e.market_id).getD ⟨0, 0⟩).yes + e.quantity < 0
      · rw [if_pos hneg]
        exact .inl rfl
      · rw [if_neg hneg]
        exact .inr ⟨_, rfl, hupd _⟩
    · rw [if_neg hst]
      by_cases hneg : ((u.positions e.market_id).getD ⟨0, 0⟩).no + e.quantity < 0
      · rw [if_pos hneg]
        exact .inl rfl
      · rw [if_neg hneg]
        exact .inr ⟨_, rfl, hupd _⟩
  · rw [if_neg h1]
    exact .inr ⟨U, rfl, fun _ => rfl⟩

theorem usersPass2_almost_total (es : List Entry) :
    ∀ U : Int → Option User,
    (∀ e ∈ es, (e.type = "balance_update" ∨ e.type = "trade" ∨ e.type = "resolution") →
      (U e.user_id).isSome = true) →
    foldE usersPass2Step U es = .error .assertionError ∨
      ∃ U', foldE usersPass2Step U es = .ok U' := by
  induction es with
  | nil => exact fun U _ => .inr ⟨U, rfl⟩
  | cons e es ih =>
    intro U h
    obtain ⟨U₁, hU₁, hdom₁⟩ := usersPass2BalanceStep_ok
      (fun hb => h e (List.mem_cons_self e es) (.inl hb))
    have h₂ : e.type = "trade" ∨ e.type = "resolution" → (U₁ e.user_id).isSome = true := by
      intro ht
      rw [hdom₁]
      exact h e (List.mem_cons_self e es) (.inr (ht.imp id id))
    have hstep : usersPass2Step U e =
        usersPass2TradeStep U₁ e := by
      unfold usersPass2Step
      rw [hU₁]
    rcases usersPass2TradeStep_almost h₂ with hl | ⟨U₂, hU₂, hdom₂⟩
    · exact .inl (by rw [foldE_cons, hstep, hl])
    · have hdom : ∀ f ∈ es,
          (f.type = "balance_update" ∨ f.type = "trade" ∨ f.type = "resolution") →
          (U₂ f.user_id).isSome = true := by
        intro f hf htf
        rw [hdom₂, hdom₁]
        exact h f (List.mem_cons_of_mem e hf) htf
      rcases ih U₂ hdom with hl | ⟨U', hU'⟩
      · exact .inl (by rw [foldE_cons, hstep, hU₂]; exact hl)
      · exact .inr ⟨U', by rw [foldE_cons, hstep, hU₂]; exact hU'⟩

def cSellTrade : Entry :=
  { type := "trade", user_id := 7, market_id := 1, share_type := "Yes",
    quantity := -1, new_balance := 0 }

theorem usersPass2BalanceStep_none_preserved {U U' : Int → Option User}
    {e : Entry} (h : usersPass2BalanceStep U e = .ok U') {uid : Int}
    (hk : U uid = none) : U' uid = none := by
  unfold usersPass2BalanceStep at h
  split at h
  · split at h
    next hu => exact Except.noConfusion h
    next u hu =>
      obtain rfl := Except.ok.inj h
      by_cases hkk : uid = e.user_id
      · rw [hkk, hu] at hk
        exact Option.noConfusion hk
      · rw [Function.update_noteq hkk]
        exact hk
  · obtain rfl := Except.ok.inj h
    exact hk

theorem usersPass2TradeStep_none_preserved {U U' : Int → Option User}
    {e : Entry} (h : usersPass2TradeStep U e = .ok U') {uid : Int}
    (hk : U uid = none) : U' uid = none := by
  unfold usersPass2TradeStep at h
  split at h
  · split at h
    next hu => exact Except.noConfusion h
    next u hu =>
      by_cases hkk : uid = e.user_id
      · rw [hkk, hu] at hk
        exact Option.noConfusion hk
      · split at h <;> dsimp only at h <;> split at h <;>
          first
          | exact Except.noConfusion h
          | (obtain rfl := Except.ok.inj h
             rw [Function.update_noteq hkk]
             exact hk)
  · obtain rfl := Except.ok.inj h
    exact hk

theorem usersPass2Step_none_preserved {U U' : Int → Option User} {e : Entry}
    (h : usersPass2Step U e = .ok U') {uid : Int} (hk : U uid = none) :
    U' uid = none := by
  unfold usersPass2Step at h
  cases hb : usersPass2BalanceStep U e with
  | error er => rw [hb] at h; exact Except.noConfusion h
  | ok U₁ =>
    rw [hb] at h
    exact usersPass2TradeStep_none_preserved h
      (usersPass2BalanceStep_none_preserved hb hk)

/-- A trade or resolution naming a user absent from the accumulator makes
the forward user fold fail (with the KeyError at that entry unless an
earlier entry fails first). -/
theorem usersPass2_fails_on_missing {es : List Entry} {e : Entry}
    (U : Int → Option User) (he : e ∈ es)
    (ht : e.type = "trade" ∨ e.type = "resolution")
    (hk : U e.user_id = none) :
    (foldE usersPass2Step U es).isOk = false := by
  obtain ⟨s, t, rfl⟩ := List.append_of_mem he
  rw [foldE_append]
  cases hs : foldE usersPass2Step U s with
  | error er => rfl
  | ok U' =>
    have hU' : U' e.user_id = none :=
      foldE_invariant (fun U => U e.user_id = none)
        (fun _ _ _ hP hstep => usersPass2Step_none_preserved hstep hP) hk hs
    dsimp only
    rw [foldE_cons]
    have hstep : usersPass2Step U' e = .error (.keyError e.user_id) := by
      unfold usersPass2Step usersPass2BalanceStep usersPass2TradeStep
      rw [if_neg (by rcases ht with ht | ht <;> rw [ht] <;> simp)]
      dsimp only
      rw [if_pos ht, hU']
    rw [hstep]
    rfl

/-- C10 (amended): full replay raises a failed key lookup rather than
silently creating the missing entity, both for a trade whose market_id has
no market_update anywhere in the log (part 1) and for a trade whose
user_id has no user_update anywhere in the log (part 2); the metadata
passes scan the whole log before quantities are folded, so an upsert
occurring AFTER the trade also satisfies the lookup — the claim's "prior"
upsert is not required.  Under the precondition that every trade's market
id is upserted somewhere in the log, every balance/trade/resolution user
id is upserted somewhere, and every recorded market status parses, the
lookup-error branch is unreachable: replay either succeeds or fails with
an AssertionError from the quantity checks (part 3); and replay is indeed
not total under that precondition — a concrete oversell log satisfying all
three precondition clauses fails with an AssertionError (part 4). -/
theorem C10_lookup_errors :
    (∀ (entries : List Entry) (e : Entry),
      e ∈ entries → e.type = "trade" →
      (∀ f ∈ entries, f.type = "market_update" → f.market_id ≠ e.market_id) →
      (Exchange._markets_from_ledger entries).isOk = false) ∧
    (∀ (entries : List Entry) (e : Entry),
      e ∈ entries → e.type = "trade" →
      (∀ f ∈ entries, f.type = "user_update" → f.user_id ≠ e.user_id) →
      (Exchange.from_ledger entries).isOk = false) ∧
    (∀ entries : List Entry,
      (∀ e ∈ entries, e.type = "market_update" →
        (statusOfString e.status).isOk = true) →
      (∀ e ∈ entries, e.type = "trade" →
        ∃ f ∈ entries, f.type = "market_update" ∧ f.market_id = e.market_id) →
      (∀ e ∈ entries,
        (e.type = "balance_update" ∨ e.type = "trade" ∨ e.type = "resolution") →
        ∃ f ∈ entries, f.type = "user_update" ∧ f.user_id = e.user_id) →
      Exchange.from_ledger entries = .error .assertionError ∨
        (Exchange.from_ledger entries).isOk = true) ∧
    ((∀ e ∈ [cMU, cUU, cSellTrade], e.type = "market_update" →
        (statusOfString e.status).isOk = true) ∧
      (∀ e ∈ [cMU, cUU, cSellTrade], e.type = "trade" →
        ∃ f ∈ [cMU, cUU, cSellTrade],
          f.type = "market_update" ∧ f.market_id = e.market_id) ∧
      (∀ e ∈ [cMU, cUU, cSellTrade],
        (e.type = "balance_update" ∨ e.type = "trade" ∨ e.type = "resolution") →
        ∃ f ∈ [cMU, cUU, cSellTrade],
          f.type = "user_update" ∧ f.user_id = e.user_id) ∧
      Exchange.from_ledger [cMU, cUU, cSellTrade] = .error .assertionError) := by
  refine ⟨?_, ?_, ?_, by decide, by decide, by decide, by rfl⟩
  · intro entries e he ht hno
    unfold Exchange._markets_from_ledger
    cases h1 : marketsPass1 entries with
    | error er => rfl
    | ok M₁ =>
      have hM₁ : M₁ e.market_id = none := by
        rw [marketsPass1_fold_char entries.reverse (fun _ => none) M₁ h1 e.market_id]
        have hfind : entries.reverse.find? (isMarketUpdateFor e.market_id) = none := by
          rw [List.find?_eq_none]
          intro f hf
          have hf' := List.mem_reverse.mp hf
          simp [isMarketUpdateFor]
          intro hft
          exact hno f hf' hft
        rw [hfind]
        rfl
      exact marketsPass2_fails_on_missing M₁ (List.mem_reverse.mpr he) ht hM₁
  · intro entries e he ht hno
    unfold Exchange.from_ledger
    cases hM : Exchange._markets_from_ledger entries with
    | error er => rfl
    | ok M =>
      dsimp only
      have hnone : (usersPass1 entries).users e.user_id = none := by
        show ((entries.reverse.foldl usersPass1Step
          ⟨fun _ => none, fun _ => none⟩).users e.user_id) = none
        rw [usersPass1_fold_char entries.reverse
          ⟨fun _ => none, fun _ => none⟩ e.user_id]
        have hfind : entries.reverse.find? (isUserUpdateFor e.user_id) = none := by
          rw [List.find?_eq_none]
          intro f hf
          have hf' := List.mem_reverse.mp hf
          simp [isUserUpdateFor]
          intro hft
          exact hno f hf' hft
        rw [hfind]
        rfl
      have hfail := usersPass2_fails_on_missing (usersPass1 entries).users he
        (Or.inl ht) hnone
      unfold Exchange._users_from_ledger
      cases hU : foldE usersPass2Step (usersPass1 entries).users entries with
      | error er => rfl
      | ok Uf =>
        rw [hU] at hfail
        simp [Except.isOk, Except.toBool] at hfail
  · intro entries hstat hmkt husr
    obtain ⟨M₁, hM₁⟩ := marketsPass1_total entries.reverse
      (fun e he h => hstat e (List.mem_reverse.mp he) h) (fun _ => none)
    have hM₁' : marketsPass1 entries = .ok M₁ := hM₁
    have hM₁dom : ∀ e ∈ entries.reverse, e.type = "trade" →
        (M₁ e.market_id).isSome = true := by
      intro e he ht
      obtain ⟨f, hf, hft, hfk⟩ := hmkt e (List.mem_reverse.mp he) ht
      rw [marketsPass1_fold_char entries.reverse (fun _ => none) M₁ hM₁ e.market_id]
      have hsome : (entries.reverse.find? (isMarketUpdateFor e.market_id)).isSome := by
        rw [List.find?_isSome]
        exact ⟨f, List.mem_reverse.mpr hf, by simp [isMarketUpdateFor, hft, hfk]⟩
      obtain ⟨g, hg⟩ := Option.isSome_iff_exists.mp hsome
      have hgmem : g ∈ entries.reverse := List.mem_of_find?_eq_some hg
      have hgp : isMarketUpdateFor e.market_id g = true := List.find?_some hg
      have hgt : g.type = "market_update" := by
        simp [isMarketUpdateFor] at hgp
        exact hgp.1
      obtain ⟨m, hm⟩ := marketOfEntry_isOk (hstat g (List.mem_reverse.mp hgmem) hgt)
      rw [hg]
      simp [hm, Except.toOption]
    rcases marketsPass2_almost_total entries.reverse M₁ hM₁dom with hl | ⟨Mf, hMf⟩
    · left
      unfold Exchange.from_ledger Exchange._markets_from_ledger
      rw [hM₁']
      dsimp only
      rw [hl]
    · have hUdom : ∀ e ∈ entries,
          (e.type = "balance_update" ∨ e.type = "trade" ∨ e.type = "resolution") →
          ((usersPass1 entries).users e.user_id).isSome = true := by
        intro e he htype
        obtain ⟨f, hf, hft, hfk⟩ := husr e he htype
        show ((entries.reverse.foldl usersPass1Step
          ⟨fun _ => none, fun _ => none⟩).users e.user_id).isSome = true
        rw [usersPass1_fold_char entries.reverse
          ⟨fun _ => none, fun _ => none⟩ e.user_id]
        have hsome : (entries.reverse.find? (isUserUpdateFor e.user_id)).isSome := by
          rw [List.find?_isSome]
          exact ⟨f, List.mem_reverse.mpr hf, by simp [isUserUpdateFor, hft, hfk]⟩
        obtain ⟨g, hg⟩ := Option.isSome_iff_exists.mp hsome
        rw [hg]
        rfl
      rcases usersPass2_almost_total entries (usersPass1 entries).users hUdom
        with hl | ⟨Uf, hUf⟩
      · left
        unfold Exchange.from_ledger Exchange._markets_from_ledger
          Exchange._users_from_ledger
        rw [hM₁']
        dsimp only
        rw [hMf]
        dsimp only
        rw [hl]
      · right
        unfold Exchange.from_ledger Exchange._markets_from_ledger
          Exchange._users_from_ledger
        rw [hM₁']
        dsimp only
        rw [hMf]
        dsimp only
        rw [hUf]
        rfl

theorem C10_witness :
    (Exchange._markets_from_ledger [cLateTrade]).isOk = false ∧
    (Exchange.from_ledger [cMU, cLateTrade]).isOk = false ∧
    (Exchange.from_ledger [cMU, cUU, cLateTrade] = .error .assertionError ∨
      (Exchange.from_ledger [cMU, cUU, cLateTrade]).isOk = true) :=
  ⟨C10_lookup_errors.1 [cLateTrade] cLateTrade (by decide) rfl (by decide),
   C10_lookup_errors.2.1 [cMU, cLateTrade] cLateTrade (by decide) rfl (by decide),
   C10_lookup_errors.2.2.1 [cMU, cUU, cLateTrade] (by decide) (by decide) (by decide)⟩

/-! ### C1: full replay versus incremental replay -/

theorem marketsPass1_append_skip (pre suf : List Entry)
    (h : ∀ e ∈ suf, e.type ≠ "market_update") :
    marketsPass1 (pre ++ suf) = marketsPass1 pre := by
  unfold marketsPass1
  rw [List.reverse_append, foldE_append,
    foldE_skip (fun e he => by
      simp [marketsPass1Step, h e (List.mem_reverse.mp he)])]

theorem usersPass1_append_skip (pre suf : List Entry)
    (h : ∀ e ∈ suf, e.type ≠ "user_update") :
    usersPass1 (pre ++ suf) = usersPass1 pre := by
  unfold usersPass1
  have hs : List.foldl usersPass1Step ⟨fun _ => none, fun _ => none⟩ suf.reverse =
      ⟨fun _ => none, fun _ => none⟩ :=
    foldl_skip (fun e he => by
      simp [usersPass1Step, h e (List.mem_reverse.mp he)])
  rw [List.reverse_append, List.foldl_append, hs]

/-- Net signed quantity of "No"-side trades on market k in a list of
entries. -/
def tradeDeltaNo (k : Int) (es : List Entry) : Int :=
  (es.map (fun e =>
    if e.type = "trade" ∧ e.market_id = k ∧ e.share_type = "No"
    then e.quantity else 0)).sum

/-- Net signed quantity of trades on market k whose share_type is anything
other than "No" (the code treats every non-"No" share_type as Yes in the
market pass). -/
def tradeDeltaYes (k : Int) (es : List Entry) : Int :=
  (es.map (fun e =>
    if e.type = "trade" ∧ e.market_id = k ∧ e.share_type ≠ "No"
    then e.quantity else 0)).sum

theorem tradeDeltaNo_reverse (k : Int) (es : List Entry) :
    tradeDeltaNo k es.reverse = tradeDeltaNo k es := by
  unfold tradeDeltaNo
  rw [List.map_reverse, List.sum_reverse]

theorem tradeDeltaYes_reverse (k : Int) (es : List Entry) :
    tradeDeltaYes k es.reverse = tradeDeltaYes k es := by
  unfold tradeDeltaYes
  rw [List.map_reverse, List.sum_reverse]

theorem tradeDeltaNo_append (k : Int) (l₁ l₂ : List Entry) :
    tradeDeltaNo k (l₁ ++ l₂) = tradeDeltaNo k l₁ + tradeDeltaNo k l₂ := by
  unfold tradeDeltaNo
  rw [List.map_append, List.sum_append]

theorem tradeDeltaYes_append (k : Int) (l₁ l₂ : List Entry) :
    tradeDeltaYes k (l₁ ++ l₂) = tradeDeltaYes k l₁ + tradeDeltaYes k l₂ := by
  unfold tradeDeltaYes
  rw [List.map_append, List.sum_append]

/-- The function applied pointwise to a market by folding the trades of a
list: add the list's net deltas to the inventory. -/
def addTradeDeltas (k : Int) (es : List Entry) (m : Market) : Market :=
  { m with shares := ⟨m.shares.no + tradeDeltaNo k es,
                      m.shares.yes + tradeDeltaYes k es⟩ }

theorem marketsPass2_char (es : List Entry) :
    ∀ M M' : Int → Option Market,
    foldE marketsPass2Step M es = .ok M' → ∀ k,
    M' k = (M k).map (addTradeDeltas k es) := by
  induction es with
  | nil =>
    intro M M' h k
    rw [foldE_nil] at h
    obtain rfl : M = M' := by injection h
    cases hk : M k <;> simp [hk, addTradeDeltas, tradeDeltaNo, tradeDeltaYes]
  | cons e es ih =>
    intro M M' h k
    rw [foldE_cons] at h
    by_cases h1 : e.type ≠ "trade"
    · have hstep : marketsPass2Step M e = .ok M := by simp [marketsPass2Step, h1]
      rw [hstep] at h
      rw [ih M M' h k]
      cases hk : M k <;>
        simp [addTradeDeltas, tradeDeltaNo, tradeDeltaYes, h1]
    · push_neg at h1
      cases hm : M e.market_id with
      | none =>
        have hstep : marketsPass2Step M e = .error (.keyError e.market_id) := by
          unfold marketsPass2Step
          rw [if_neg (by simp [h1]), hm]
        rw [hstep] at h
        exact Except.noConfusion h
      | some m =>
        by_cases hst : e.share_type = "No"
        · by_cases hneg : m.shares.no + e.quantity < 0
          · have hstep : marketsPass2Step M e = .error .assertionError := by
              simp [marketsPass2Step, h1, hm, hst, hneg]
            rw [hstep] at h
            exact Except.noConfusion h
          · have hstep : marketsPass2Step M e = .ok (Function.update M e.market_id
                (some { m with shares := ⟨m.shares.no + e.quantity, m.shares.yes⟩ })) := by
              simp [marketsPass2Step, h1, hm, hst, hneg]
            rw [hstep] at h
            rw [ih _ M' h k]
            by_cases hkk : k = e.market_id
            · subst hkk
              rw [Function.update_same, hm]
              simp only [Option.map_some', addTradeDeltas, tradeDeltaNo,
                tradeDeltaYes, List.map_cons, List.sum_cons]
              rw [if_pos (by simp [h1, hst]), if_neg (by simp [hst])]
              simp only [Option.some.injEq]
              congr 1
              simp only [Shares.mk.injEq]
              omega
            · rw [Function.update_noteq hkk]
              cases hk : M k
              · rfl
              next m' =>
                simp only [Option.map_some', Option.some.injEq, addTradeDeltas,
                  tradeDeltaNo, tradeDeltaYes, List.map_cons, List.sum_cons]
                rw [if_neg (by intro hc; exact hkk hc.2.1.symm),
                  if_neg (by intro hc; exact hkk hc.2.1.symm)]
                congr 1
                simp only [Shares.mk.injEq]
                omega
        · by_cases hneg : m.shares.yes + e.quantity < 0
          · have hstep : marketsPass2Step M e = .error .assertionError := by
              simp [marketsPass2Step, h1, hm, hst, hneg]
            rw [hstep] at h
            exact Except.noConfusion h
          · have hstep : marketsPass2Step M e = .ok (Function.update M e.market_id
                (some { m with shares := ⟨m.shares.no, m.shares.yes + e.quantity⟩ })) := by
              simp [marketsPass2Step, h1, hm, hst, hneg]
            rw [hstep] at h
            rw [ih _ M' h k]
            by_cases hkk : k = e.market_id
            · subst hkk
              rw [Function.update_same, hm]
              simp only [Option.map_some', addTradeDeltas, tradeDeltaNo,
                tradeDeltaYes, List.map_cons, List.sum_cons]
              rw [if_neg (by simp [hst]), if_pos (by simp [h1, hst])]
              simp only [Option.some.injEq]
              congr 1
              simp only [Shares.mk.injEq]
              omega
            · rw [Function.update_noteq hkk]
              cases hk : M k
              · rfl
              next m' =>
                simp only [Option.map_some', Option.some.injEq, addTradeDeltas,
                  tradeDeltaNo, tradeDeltaYes, List.map_cons, List.sum_cons]
                rw [if_neg (by intro hc; exact hkk hc.2.1.symm),
                  if_neg (by intro hc; exact hkk hc.2.1.symm)]
                congr 1
                simp only [Shares.mk.injEq]
                omega

theorem addTradeDeltas_comp (k : Int) (e : Entry) (es : List Entry) (m : Market) :
    addTradeDeltas k es (addTradeDeltas k [e] m) = addTradeDeltas k (e :: es) m := by
  have hno := tradeDeltaNo_append k [e] es
  have hyes := tradeDeltaYes_append k [e] es
  rw [List.singleton_append] at hno hyes
  unfold addTradeDeltas
  dsimp only
  congr 1
  simp only [Shares.mk.injEq]
  constructor <;> omega

theorem addTradeDeltas_single_no (k : Int) (e : Entry) (ht : e.type = "trade")
    (hk : e.market_id = k) (hst : e.share_type = "No") (m : Market) :
    addTradeDeltas k [e] m =
      { m with shares := ⟨m.shares.no + e.quantity, m.shares.yes⟩ } := by
  unfold addTradeDeltas tradeDeltaNo tradeDeltaYes
  simp [ht, hk, hst]

theorem addTradeDeltas_single_yes (k : Int) (e : Entry) (ht : e.type = "trade")
    (hk : e.market_id = k) (hst : e.share_type ≠ "No") (m : Market) :
    addTradeDeltas k [e] m =
      { m with shares := ⟨m.shares.no, m.shares.yes + e.quantity⟩ } := by
  unfold addTradeDeltas tradeDeltaNo tradeDeltaYes
  simp [ht, hk, hst]

theorem addTradeDeltas_single_skip (k : Int) (e : Entry)
    (h : e.type ≠ "trade" ∨ e.market_id ≠ k) (m : Market) :
    addTradeDeltas k [e] m = m := by
  unfold addTradeDeltas tradeDeltaNo tradeDeltaYes
  rcases h with h | h <;> simp [h]

/-- A successful incremental step on a balance_update or trade entry leaves
the discord map unchanged, adds the entry's trade delta to the markets map,
and acts on the users map exactly as the full-replay user pass does. -/
theorem updateStep_ok_elim {ex ex' : Exchange} {e : Entry}
    (htype : e.type = "balance_update" ∨ e.type = "trade")
    (h : Exchange.updateStep ex e = .ok ex') :
    ex'._discord_user_ids = ex._discord_user_ids ∧
    (∀ k, ex'._markets k = (ex._markets k).map (addTradeDeltas k [e])) ∧
    usersPass2Step ex._users e = .ok ex'._users ∧
    ex'._ledger_index = ex._ledger_index := by
  rcases htype with hb | ht
  · -- balance_update: users updated, markets and discord untouched
    simp only [Exchange.updateStep, hb] at h
    cases hu : ex._users e.user_id with
    | none => rw [hu] at h; exact Except.noConfusion h
    | some u =>
      rw [hu] at h
      dsimp only at h
      obtain rfl := Except.ok.inj h
      refine ⟨rfl, ?_, ?_, rfl⟩
      · intro k
        rw [show addTradeDeltas k [e] = id from
          funext (addTradeDeltas_single_skip k e (.inl (by rw [hb]; simp)))]
        cases ex._markets k <;> rfl
      · unfold usersPass2Step usersPass2BalanceStep usersPass2TradeStep
        rw [if_pos hb, hu]
        dsimp only
        rw [if_neg (by rw [hb]; intro hc; rcases hc with hc | hc <;> simp at hc)]
  · -- trade
    simp only [Exchange.updateStep, ht] at h
    cases hu : ex._users e.user_id with
    | none => rw [hu] at h; exact Except.noConfusion h
    | some u =>
      cases hm : ex._markets e.market_id with
      | none => rw [hu, hm] at h; exact Except.noConfusion h
      | some m =>
        rw [hu, hm] at h
        dsimp only at h
        by_cases hnb : e.new_balance < 0
        · rw [if_pos hnb] at h; exact Except.noConfusion h
        rw [if_neg hnb] at h
        by_cases hstv : e.share_type ≠ "Yes" ∧ e.share_type ≠ "No"
        · rw [if_pos hstv] at h; exact Except.noConfusion h
        rw [if_neg hstv] at h
        by_cases hst : e.share_type = "No"
        · rw [if_pos hst] at h
          dsimp only at h
          by_cases hmneg : m.shares.no + e.quantity < 0 ∨ m.shares.yes < 0
          · rw [if_pos hmneg] at h; exact Except.noConfusion h
          rw [if_neg hmneg] at h
          by_cases huneg : ((u.positions e.market_id).getD ⟨0, 0⟩).no + e.quantity < 0 ∨
              ((u.positions e.market_id).getD ⟨0, 0⟩).yes < 0
          · rw [if_pos huneg] at h; exact Except.noConfusion h
          rw [if_neg huneg] at h
          obtain rfl := Except.ok.inj h
          refine ⟨rfl, ?_, ?_, rfl⟩
          · intro k
            dsimp only
            by_cases hkk : k = e.market_id
            · subst hkk
              rw [Function.update_same, hm, Option.map_some',
                addTradeDeltas_single_no e.market_id e ht rfl hst]
            · rw [Function.update_noteq hkk]
              cases hk : ex._markets k with
              | none => rfl
              | some m' =>
                rw [Option.map_some',
                  addTradeDeltas_single_skip k e (.inr (fun hc => hkk hc.symm))]
          · unfold usersPass2Step usersPass2BalanceStep usersPass2TradeStep
            rw [if_neg (by rw [ht]; simp)]
            try dsimp only
            rw [if_pos (.inl ht), hu]
            try dsimp only
            rw [if_neg (by rw [hst]; simp)]
            try dsimp only
            rw [if_neg (by push_neg at huneg; exact not_lt.mpr huneg.1)]
        · have hsty : e.share_type = "Yes" := by
            rcases not_and_or.mp hstv with hc | hc
            · exact not_not.mp hc
            · exact absurd (not_not.mp hc) hst
          rw [if_neg hst] at h
          dsimp only at h
          by_cases hmneg : m.shares.no < 0 ∨ m.shares.yes + e.quantity < 0
          · rw [if_pos hmneg] at h; exact Except.noConfusion h
          rw [if_neg hmneg] at h
          by_cases huneg : ((u.positions e.market_id).getD ⟨0, 0⟩).no < 0 ∨
              ((u.positions e.market_id).getD ⟨0, 0⟩).yes + e.quantity < 0
          · rw [if_pos huneg] at h; exact Except.noConfusion h
          rw [if_neg huneg] at h
          obtain rfl := Except.ok.inj h
          refine ⟨rfl, ?_, ?_, rfl⟩
          · intro k
            dsimp only
            by_cases hkk : k = e.market_id
            · subst hkk
              rw [Function.update_same, hm, Option.map_some',
                addTradeDeltas_single_yes e.market_id e ht rfl (by rw [hsty]; simp)]
            · rw [Function.update_noteq hkk]
              cases hk : ex._markets k with
              | none => rfl
              | some m' =>
                rw [Option.map_some',
                  addTradeDeltas_single_skip k e (.inr (fun hc => hkk hc.symm))]
          · unfold usersPass2Step usersPass2BalanceStep usersPass2TradeStep
            rw [if_neg (by rw [ht]; simp)]
            try dsimp only
            rw [if_pos (.inl ht), hu]
            try dsimp only
            rw [if_pos hsty]
            try dsimp only
            rw [if_neg (by push_neg at huneg; exact not_lt.mpr huneg.2)]

theorem addTradeDeltas_reverse (k : Int) (es : List Entry) :
    addTradeDeltas k es.reverse = addTradeDeltas k es := by
  funext m
  unfold addTradeDeltas
  rw [tradeDeltaNo_reverse, tradeDeltaYes_reverse]

theorem addTradeDeltas_comp_append (k : Int) (l₁ l₂ : List Entry) (m : Market) :
    addTradeDeltas k l₂ (addTradeDeltas k l₁ m) = addTradeDeltas k (l₁ ++ l₂) m := by
  have hno := tradeDeltaNo_append k l₁ l₂
  have hyes := tradeDeltaYes_append k l₁ l₂
  unfold addTradeDeltas
  dsimp only
  congr 1
  simp only [Shares.mk.injEq]
  constructor <;> omega

theorem Exchange.ext' (x y : Exchange) (h1 : x._markets = y._markets)
    (h2 : x._users = y._users) (h3 : x._discord_user_ids = y._discord_user_ids)
    (h4 : x._ledger_index = y._ledger_index) : x = y := by
  cases x
  cases y
  cases h1
  cases h2
  cases h3
  cases h4
  rfl

theorem updateFold_ok_elim (es : List Entry) :
    ∀ ex ex' : Exchange,
    (∀ e ∈ es, e.type = "balance_update" ∨ e.type = "trade") →
    foldE Exchange.updateStep ex es = .ok ex' →
    ex'._discord_user_ids = ex._discord_user_ids ∧
    (∀ k, ex'._markets k = (ex._markets k).map (addTradeDeltas k es)) ∧
    foldE usersPass2Step ex._users es = .ok ex'._users ∧
    ex'._ledger_index = ex._ledger_index := by
  induction es with
  | nil =>
    intro ex ex' _ h
    rw [foldE_nil] at h
    obtain rfl := Except.ok.inj h
    refine ⟨rfl, ?_, rfl, rfl⟩
    intro k
    rw [show addTradeDeltas k [] = id from funext (fun m => by
      unfold addTradeDeltas tradeDeltaNo tradeDeltaYes
      simp)]
    cases ex._markets k <;> rfl
  | cons e es ih =>
    intro ex ex' htypes h
    rw [foldE_cons] at h
    cases hstep : Exchange.updateStep ex e with
    | error er => rw [hstep] at h; exact Except.noConfusion h
    | ok ex₁ =>
      rw [hstep] at h
      obtain ⟨hd1, hm1, hu1, hi1⟩ :=
        updateStep_ok_elim (htypes e (List.mem_cons_self e es)) hstep
      obtain ⟨hd2, hm2, hu2, hi2⟩ :=
        ih ex₁ ex' (fun f hf => htypes f (List.mem_cons_of_mem e hf)) h
      refine ⟨hd2.trans hd1, ?_, ?_, hi2.trans hi1⟩
      · intro k
        rw [hm2 k, hm1 k]
        cases hk : ex._markets k with
        | none => rfl
        | some m =>
          rw [Option.map_some', Option.map_some', addTradeDeltas_comp,
            Option.map_some']
      · rw [foldE_cons, hu1]
        exact hu2

/-- C1 (amended): full replay equals full-replay-to-C plus incremental
replay of the suffix, provided the suffix contains only balance_update and
trade events and both replay routes succeed; and incremental replay of an
empty suffix is the identity on a fully replayed state.  (For arbitrary
split points the claim is false: the incremental path rejects
market_update/resolution entries, diverges from full replay on the
external-id map when a user_update in the suffix changes a user's discord
id, and the two routes can disagree on whether replay fails at all, because
full replay checks market inventories in reverse order and skips the
balance check.) -/
theorem C1_full_vs_incremental_replay :
    (∀ (entries : List Entry) (C : Nat),
      (∀ e ∈ entries.drop C, e.type = "balance_update" ∨ e.type = "trade") →
      (Exchange.from_ledger entries).isOk = true →
      ((Exchange.from_ledger (entries.take C)).bind
        (fun ex => Exchange.update_from_extended_ledger ex entries)).isOk = true →
      Exchange.from_ledger entries =
        (Exchange.from_ledger (entries.take C)).bind
          (fun ex => Exchange.update_from_extended_ledger ex entries)) ∧
    (∀ (entries : List Entry) (ex : Exchange),
      Exchange.from_ledger entries = .ok ex →
      Exchange.update_from_extended_ledger ex entries = .ok ex) := by
  constructor
  · intro entries C htypes hfull hinc
    have hsplit : entries.take C ++ entries.drop C = entries :=
      List.take_append_drop C entries
    have hnomu : ∀ e ∈ entries.drop C, e.type ≠ "market_update" := by
      intro e he
      rcases htypes e he with h | h <;> rw [h] <;> simp
    have hnouu : ∀ e ∈ entries.drop C, e.type ≠ "user_update" := by
      intro e he
      rcases htypes e he with h | h <;> rw [h] <;> simp
    have hpass1m : marketsPass1 entries = marketsPass1 (entries.take C) := by
      conv_lhs => rw [← hsplit]
      exact marketsPass1_append_skip _ _ hnomu
    have hpass1u : usersPass1 entries = usersPass1 (entries.take C) := by
      conv_lhs => rw [← hsplit]
      exact usersPass1_append_skip _ _ hnouu
    cases hF : Exchange.from_ledger entries with
    | error er => rw [hF] at hfull; simp [Except.isOk, Except.toBool] at hfull
    | ok exFull =>
      cases hP : Exchange.from_ledger (entries.take C) with
      | error er =>
        rw [hP] at hinc
        simp [Except.isOk, Except.toBool, Except.bind] at hinc
      | ok exPre =>
        obtain ⟨M₁, hM₁, hM2full, hUfull, hDfull, hLfull⟩ := from_ledger_ok_elim hF
        obtain ⟨N₁, hN₁, hM2pre, hUpre, hDpre, hLpre⟩ := from_ledger_ok_elim hP
        have hMN : N₁ = M₁ :=
          Except.ok.inj (hN₁.symm.trans (hpass1m.symm.trans hM₁))
        rw [hMN] at hM2pre
        have hdrop : entries.drop exPre._ledger_index = entries.drop C := by
          rw [hLpre, List.length_take]
          rcases le_total C entries.length with hle | hle
          · rw [min_eq_left hle]
          · rw [min_eq_right hle, List.drop_length, List.drop_eq_nil_of_le hle]
        rw [hP] at hinc
        replace hinc : (Exchange.update_from_extended_ledger exPre entries).isOk
            = true := hinc
        show Except.ok exFull = Exchange.update_from_extended_ledger exPre entries
        unfold Exchange.update_from_extended_ledger at hinc ⊢
        rw [hdrop] at hinc ⊢
        cases hFold : foldE Exchange.updateStep exPre (entries.drop C) with
        | error er =>
          rw [hFold] at hinc
          simp [Except.isOk, Except.toBool] at hinc
        | ok exInc =>
          dsimp only
          obtain ⟨hdI, hmI, huI, _⟩ :=
            updateFold_ok_elim (entries.drop C) exPre exInc htypes hFold
          have husers : exFull._users = exInc._users := by
            have h1 : foldE usersPass2Step (usersPass1 (entries.take C)).users
                (entries.take C ++ entries.drop C) = .ok exFull._users := by
              rw [hsplit, ← hpass1u]
              exact hUfull
            rw [foldE_append, hUpre] at h1
            dsimp only at h1
            exact (Except.ok.inj (huI.symm.trans h1)).symm
          have hmarkets : exFull._markets = exInc._markets := by
            funext k
            have hfullk := marketsPass2_char entries.reverse M₁
              exFull._markets hM2full k
            have hprek := marketsPass2_char (entries.take C).reverse M₁
              exPre._markets hM2pre k
            rw [addTradeDeltas_reverse] at hfullk hprek
            rw [hfullk, hmI k, hprek]
            cases hk : M₁ k with
            | none => rfl
            | some m =>
              rw [Option.map_some', Option.map_some', Option.map_some',
                addTradeDeltas_comp_append, hsplit]
          have hdiscord : exFull._discord_user_ids = exInc._discord_user_ids := by
            rw [hDfull, hpass1u, ← hDpre, ← hdI]
          congr 1
          exact Exchange.ext' _ _ hmarkets husers hdiscord hLfull
  · intro entries ex h
    obtain ⟨M₁, _hM₁, _h2, _h3, _h4, hlen⟩ := from_ledger_ok_elim h
    unfold Exchange.update_from_extended_ledger
    rw [hlen, List.drop_length, foldE_nil]
    dsimp only
    rw [← hlen]

theorem C1_witness :
    (∀ e ∈ List.drop 2 [cMU, cUU, cLateTrade],
      e.type = "balance_update" ∨ e.type = "trade") ∧
    (Exchange.from_ledger [cMU, cUU, cLateTrade]).isOk = true ∧
    ((Exchange.from_ledger (List.take 2 [cMU, cUU, cLateTrade])).bind
      (fun ex => Exchange.update_from_extended_ledger ex [cMU, cUU, cLateTrade])).isOk
        = true ∧
    Exchange.from_ledger [cMU, cUU, cLateTrade] =
      (Exchange.from_ledger (List.take 2 [cMU, cUU, cLateTrade])).bind
        (fun ex => Exchange.update_from_extended_ledger ex [cMU, cUU, cLateTrade]) :=
  ⟨by decide, by decide, by decide,
   C1_full_vs_incremental_replay.1 [cMU, cUU, cLateTrade] 2
     (by decide) (by decide) (by decide)⟩

/-!
Part B: the pricing engine, a shallow embedding of
  - the LMSR price in market/exchange.py (exp, Market._yes_price,
    Market.no_price, Market.simulate_liquidation_proceeds), and
  - discord_bot/computation.py (_round_cents, _sell_yes_proceeds_and_update_r,
    _sell_no_proceeds_and_update_r, simulate_liquidation_proceeds,
    calculate_trade_cost).

Modelling conventions for Part B:
  - Python floats are modelled as real numbers; rounding of individual
    arithmetic operations is ignored (the spec's claims are stated up to
    floating tolerance).  Where the special values inf and nan are
    observable — the safe exp wrapper in exchange.py returns float("inf")
    on OverflowError, and inf / inf = nan propagates through the price —
    we use the three-valued type F below.  Overflow of exp is modelled by
    the threshold 2^1024 (the smallest value beyond every finite double);
    underflow of exp to 0.0 is not modelled, and the F operations only
    define the sign combinations these computations can reach (negative
    infinities and division by exact zero do not arise: weights are ≥ 1 on
    the non-negative inventories considered, so their sum is positive).
  - Python's round(x, 2) (banker's rounding) and computation.py's
    Decimal ROUND_HALF_UP quantisation differ only at exact half-cent
    ties.  A binary float is never an exact half-cent tie, since
    (2k+1)/200 has a factor 5^2 in its reduced denominator and hence is
    not a dyadic rational; on every float input the two roundings agree,
    and both are modelled by the single function _round_cents below
    (round half away from zero on the reals).
-/

/-- A Python float as observed by the pricing code: a finite value, +inf,
or nan. -/
inductive F where
  | num (x : ℝ)
  | inf
  | nan

/-- The safe exp of market/exchange.py: math.exp, with OverflowError caught
and turned into float("inf"). -/
noncomputable def expF (x : ℝ) : F :=
  if Real.exp x < 2 ^ 1024 then .num (Real.exp x) else .inf

/-- Float addition (combinations reached by the price computation). -/
noncomputable def F.add : F → F → F
  | .nan, _ => .nan
  | .num _, .nan => .nan
  | .inf, .nan => .nan
  | .inf, .inf => .inf
  | .inf, .num _ => .inf
  | .num _, .inf => .inf
  | .num a, .num b => .num (a + b)

/-- Float division; inf / inf = nan as in IEEE.  Division by an exact zero
(ZeroDivisionError in Python) cannot arise here and is mapped to nan. -/
noncomputable def F.div : F → F → F
  | .nan, _ => .nan
  | .num _, .nan => .nan
  | .inf, .nan => .nan
  | .inf, .inf => .nan
  | .inf, .num _ => .inf
  | .num _, .inf => .num 0
  | .num a, .num b => if b = 0 then .nan else .num (a / b)

/-- Float multiplication (left operand is the positive literal 100 in the
only use, so negative-sign cases do not arise). -/
noncomputable def F.mul : F → F → F
  | .nan, _ => .nan
  | .num _, .nan => .nan
  | .inf, .nan => .nan
  | .inf, .inf => .inf
  | .inf, .num b => if b = 0 then .nan else .inf
  | .num a, .inf => if a = 0 then .nan else .inf
  | .num a, .num b => .num (a * b)

/-- Float subtraction (left operand is the literal 100 in the only use). -/
noncomputable def F.sub : F → F → F
  | .nan, _ => .nan
  | .num _, .nan => .nan
  | .inf, .nan => .nan
  | .num a, .num b => .num (a - b)
  | .num _, .inf => .nan
  | .inf, .num _ => .inf
  | .inf, .inf => .nan

/-- Float less-than as a Bool: any comparison with nan is False. -/
noncomputable def F.blt : F → F → Bool
  | .nan, _ => false
  | .num _, .nan => false
  | .inf, .nan => false
  | .num a, .num b => decide (a < b)
  | .num _, .inf => true
  | .inf, .num _ => false
  | .inf, .inf => false

/-- `Market._yes_price` of market/exchange.py (the Shares pair flattened to
two arguments): 100 * exp(y/b) / (exp(y/b) + exp(n/b)), the quotient
clamped into [0, 1] by the two roundoff guards. -/
noncomputable def Market._yes_price (liquidity no_shares yes_shares : ℝ) : F :=
  let yes_weight := expF (yes_shares / liquidity)
  let no_weight := expF (no_shares / liquidity)
  let price := yes_weight.div (yes_weight.add no_weight)
  let price :=
    if price.blt (.num 0) then .num 0
    else if (F.num 1).blt price then .num 1
    else price
  (F.num 100).mul price

/-- `Market.no_price`: 100 - yes_price. -/
noncomputable def Market.no_price (liquidity no_shares yes_shares : ℝ) : F :=
  (F.num 100).sub (Market._yes_price liquidity no_shares yes_shares)

/-! ### C3: price bounds and complement -/

/-- C3 (amended): for liquidity b > 0 and non-negative inventories, as long
as exp(y/b) does not overflow, yes_price is a finite value p ∈ [0, 100],
no_price is exactly 100 - p, and the two sum to exactly 100 (in exact real
arithmetic; the clamps never fire away from the boundary).  This includes
the case where exp(n/b) overflows: the price then saturates at exactly 0.
But when exp(y/b) overflows, the quotient is inf/inf = nan, the clamps pass
nan through, and BOTH prices are nan — not values in [0, 100]. -/
theorem C3_price_bounds :
    ∀ b n y : ℝ, 0 < b → 0 ≤ n → 0 ≤ y →
      (Real.exp (y / b) < 2 ^ 1024 →
        ∃ p : ℝ, Market._yes_price b n y = .num p ∧ 0 ≤ p ∧ p ≤ 100 ∧
          Market.no_price b n y = .num (100 - p) ∧
          (Market._yes_price b n y).add (Market.no_price b n y) = .num 100) ∧
      (2 ^ 1024 ≤ Real.exp (y / b) →
        Market._yes_price b n y = .nan ∧ Market.no_price b n y = .nan) := by
  intro b n y hb hn hy
  constructor
  · intro hyb
    have hE1 : expF (y / b) = .num (Real.exp (y / b)) := by
      unfold expF
      rw [if_pos hyb]
    by_cases hnb : Real.exp (n / b) < 2 ^ 1024
    · have hE2 : expF (n / b) = .num (Real.exp (n / b)) := by
        unfold expF
        rw [if_pos hnb]
      have hE1pos : 0 < Real.exp (y / b) := Real.exp_pos _
      have hE2pos : 0 < Real.exp (n / b) := Real.exp_pos _
      have hsumpos : 0 < Real.exp (y / b) + Real.exp (n / b) := by linarith
      have hr0 : 0 < Real.exp (y / b) / (Real.exp (y / b) + Real.exp (n / b)) :=
        div_pos hE1pos hsumpos
      have hr1 : Real.exp (y / b) / (Real.exp (y / b) + Real.exp (n / b)) < 1 := by
        rw [div_lt_one hsumpos]
        linarith
      have hprice : Market._yes_price b n y =
          .num (100 * (Real.exp (y / b) / (Real.exp (y / b) + Real.exp (n / b)))) := by
        unfold Market._yes_price
        rw [hE1, hE2]
        dsimp only
        rw [show (F.num (Real.exp (y / b))).add (F.num (Real.exp (n / b))) =
          F.num (Real.exp (y / b) + Real.exp (n / b)) from rfl]
        rw [show (F.num (Real.exp (y / b))).div
            (F.num (Real.exp (y / b) + Real.exp (n / b))) =
          F.num (Real.exp (y / b) / (Real.exp (y / b) + Real.exp (n / b))) from by
          unfold F.div
          dsimp only
          rw [if_neg (ne_of_gt hsumpos)]]
        rw [show (F.num (Real.exp (y / b) / (Real.exp (y / b) + Real.exp (n / b)))).blt
            (F.num 0) = false from by
          unfold F.blt
          exact decide_eq_false (not_lt.mpr hr0.le)]
        rw [if_neg (by simp)]
        rw [show (F.num 1).blt
            (F.num (Real.exp (y / b) / (Real.exp (y / b) + Real.exp (n / b)))) =
            false from by
          unfold F.blt
          exact decide_eq_false (not_lt.mpr hr1.le)]
        rw [if_neg (by simp)]
        rfl
      refine ⟨100 * (Real.exp (y / b) / (Real.exp (y / b) + Real.exp (n / b))),
        hprice, by positivity, ?_, ?_, ?_⟩
      · nlinarith [hr1]
      · unfold Market.no_price
        rw [hprice]
        rfl
      · unfold Market.no_price
        rw [hprice]
        show F.num _ = F.num 100
        congr 1
        ring
    · have hE2 : expF (n / b) = .inf := by
        unfold expF
        rw [if_neg hnb]
      have hprice : Market._yes_price b n y = .num 0 := by
        unfold Market._yes_price
        rw [hE1, hE2]
        dsimp only
        rw [show (F.num (Real.exp (y / b))).add F.inf = F.inf from rfl]
        rw [show (F.num (Real.exp (y / b))).div F.inf = F.num 0 from rfl]
        rw [show (F.num (0 : ℝ)).blt (F.num 0) = false from
          decide_eq_false (lt_irrefl (0 : ℝ))]
        rw [if_neg (by simp)]
        rw [show (F.num 1).blt (F.num (0 : ℝ)) = false from
          decide_eq_false (by norm_num)]
        rw [if_neg (by simp)]
        show F.num (100 * 0) = F.num 0
        norm_num
      refine ⟨0, hprice, le_refl 0, by norm_num, ?_, ?_⟩
      · unfold Market.no_price
        rw [hprice]
        rfl
      · unfold Market.no_price
        rw [hprice]
        show F.num (0 + (100 - 0)) = F.num 100
        norm_num
  · intro hyb
    have hE1 : expF (y / b) = .inf := by
      unfold expF
      rw [if_neg (not_lt.mpr hyb)]
    have hprice : Market._yes_price b n y = .nan := by
      unfold Market._yes_price
      rw [hE1]
      cases hE2 : expF (n / b) with
      | num E2 =>
        dsimp only
        rw [show F.inf.add (F.num E2) = F.inf from rfl,
          show F.inf.div F.inf = F.nan from rfl]
        rfl
      | inf =>
        dsimp only
        rw [show F.inf.add F.inf = F.inf from rfl,
          show F.inf.div F.inf = F.nan from rfl]
        rfl
      | nan =>
        exact absurd hE2 (by unfold expF; split <;> simp)
    refine ⟨hprice, ?_⟩
    unfold Market.no_price
    rw [hprice]
    rfl

theorem C3_witness :
    (0 : ℝ) < 1 ∧ Real.exp ((0 : ℝ) / 1) < 2 ^ 1024 ∧
    (∃ p : ℝ, Market._yes_price 1 0 0 = .num p ∧ 0 ≤ p ∧ p ≤ 100 ∧
      Market.no_price 1 0 0 = .num (100 - p) ∧
      (Market._yes_price 1 0 0).add (Market.no_price 1 0 0) = .num 100) :=
  have h1 : (0 : ℝ) < 1 := one_pos
  have h2 : Real.exp ((0 : ℝ) / 1) < 2 ^ 1024 := by
    rw [zero_div, Real.exp_zero]
    norm_num
  ⟨h1, h2, (C3_price_bounds 1 0 0 h1 le_rfl le_rfl).1 h2⟩

/-- C3 counterexample: at b = 1, n = 0, y = 1000 the yes-side weight
overflows to inf, the price becomes inf / inf = nan, the round-off clamps
pass nan through, and both prices are nan — not values in [0, 100] summing
to 100 — refuting the claim in the very overflow regime it covers. -/
theorem C3_counterexample :
    Market._yes_price 1 0 1000 = .nan ∧ Market.no_price 1 0 1000 = .nan := by
  have hofl : (2 : ℝ) ^ 1024 ≤ Real.exp ((1000 : ℝ) / 1) := by
    rw [div_one]
    have h1 : Real.exp (1000 : ℝ) = Real.exp 1 ^ (1000 : ℕ) := by
      rw [← Real.exp_nat_mul]
      norm_num
    have h2 : (5 / 2 : ℝ) ≤ Real.exp 1 := by
      have := Real.exp_one_gt_d9
      linarith
    have h3 : (5 / 2 : ℝ) ^ (1000 : ℕ) ≤ Real.exp 1 ^ (1000 : ℕ) :=
      pow_le_pow_left₀ (by norm_num) h2 1000
    have h4 : (2 : ℝ) ^ 1024 ≤ (5 / 2 : ℝ) ^ (1000 : ℕ) := by
      rw [div_pow, le_div_iff₀ (by positivity)]
      norm_num
    rw [h1]
    exact le_trans h4 h3
  have hE1 : expF ((1000 : ℝ) / 1) = .inf := by
    unfold expF
    rw [if_neg (not_lt.mpr hofl)]
  have hE2 : expF ((0 : ℝ) / 1) = .num 1 := by
    unfold expF
    rw [zero_div, Real.exp_zero, if_pos (by norm_num)]
  have hprice : Market._yes_price 1 0 1000 = .nan := by
    unfold Market._yes_price
    rw [hE1, hE2]
    dsimp only
    rw [show F.inf.add (F.num 1) = F.inf from rfl,
      show F.inf.div F.inf = F.nan from rfl]
    rfl
  exact ⟨hprice, by unfold Market.no_price; rw [hprice]; rfl⟩

/-! ### Rounding and liquidation (market/exchange.py and
discord_bot/computation.py) -/

/-- Round to the nearest cent, half away from zero, on the reals.  Models
both Python's round(x, 2) and computation.py's Decimal ROUND_HALF_UP
quantisation, which agree on every float (see the Part B header note). -/
noncomputable def _round_cents (x : ℝ) : ℝ :=
  (if 0 ≤ x then ((⌊x * 100 + 1 / 2⌋ : ℤ) : ℝ)
   else -((⌊-x * 100 + 1 / 2⌋ : ℤ) : ℝ)) / 100

theorem _round_cents_zero : _round_cents 0 = 0 := by
  unfold _round_cents
  rw [if_pos le_rfl]
  have h0 : ⌊(0 : ℝ) * 100 + 1 / 2⌋ = 0 := by
    rw [Int.floor_eq_zero_iff]
    norm_num [Set.mem_Ico]
  rw [h0]
  norm_num

/-- `Market.simulate_liquidation_proceeds` of market/exchange.py, with the
market's yes_price passed as a real argument (its computation is modelled
separately in the F domain; this definition covers the finite-price
domain).  The Python truthiness tests `if user_yes_shares:` are `≠ 0`. -/
noncomputable def Market.simulate_liquidation_proceeds
    (yes_price b user_no user_yes : ℝ) : ℝ :=
  let p_yes := yes_price / 100
  let r := p_yes / (1 - p_yes)
  let proceeds : ℝ := 0
  let pr : ℝ × ℝ :=
    if user_yes ≠ 0 then
      (_round_cents (-(b * Real.log ((r * Real.exp (-user_yes / b) + 1) / (r + 1)) * 100)),
        r * Real.exp (-user_yes / b))
    else (proceeds, r)
  let proceeds :=
    if user_no ≠ 0 then
      pr.1 + _round_cents (-(b * Real.log ((pr.2 + Real.exp (-user_no / b)) / (pr.2 + 1)) * 100))
    else pr.1
  _round_cents proceeds

namespace computation

inductive ShareType where
  | Yes
  | No
deriving DecidableEq

/-- `_sell_yes_proceeds_and_update_r` of computation.py. -/
noncomputable def _sell_yes_proceeds_and_update_r (r b s : ℝ) : ℝ × ℝ :=
  if s ≤ 0 ∨ b ≤ 0 then (0, r)
  else
    (_round_cents (-(b * Real.log ((r * Real.exp (-s / b) + 1) / (r + 1)) * 100)),
      r * Real.exp (-s / b))

/-- `_sell_no_proceeds_and_update_r` of computation.py. -/
noncomputable def _sell_no_proceeds_and_update_r (r b s : ℝ) : ℝ × ℝ :=
  if s ≤ 0 ∨ b ≤ 0 then (0, r)
  else
    (_round_cents (-(b * Real.log ((r + Real.exp (-s / b)) / (r + 1)) * 100)),
      r * Real.exp (s / b))

/-- `simulate_liquidation_proceeds` of computation.py (`liquidity is None`
dropped; `user_yes or 0.0` is the identity on reals). -/
noncomputable def simulate_liquidation_proceeds
    (p_yes_pct liquidity user_yes user_no : ℝ) : ℝ :=
  if liquidity ≤ 0 then 0
  else
    let p_yes := max (1e-9) (min (1 - 1e-9) (p_yes_pct / 100))
    let r := p_yes / (1 - p_yes)
    let s_yes := max 0 user_yes
    let s_no := max 0 user_no
    let yes_pr := _sell_yes_proceeds_and_update_r r liquidity s_yes
    let no_pr := _sell_no_proceeds_and_update_r yes_pr.2 liquidity s_no
    _round_cents (yes_pr.1 + no_pr.1)

/-- `calculate_trade_cost` of computation.py. -/
noncomputable def calculate_trade_cost
    (p_yes_pct liquidity quantity : ℝ) (share_type : ShareType) : ℝ :=
  if liquidity ≤ 0 ∨ quantity ≤ 0 then 0
  else
    let p_yes := max (1e-9) (min (1 - 1e-9) (p_yes_pct / 100))
    let r := p_yes / (1 - p_yes)
    let b := liquidity
    let s := quantity
    let cost :=
      if share_type = ShareType.Yes then
        b * Real.log ((r * Real.exp (s / b) + 1) / (r + 1)) * 100
      else
        b * Real.log ((r + Real.exp (s / b)) / (r + 1)) * 100
    _round_cents cost

end computation

/-- Modelled from the claim's wording, for comparison with the two source
translations: sell all Yes shares at ratio r (rounding the partial proceeds
to the nearest cent), update r, sell all No shares against the updated r
(rounding again), and round the sum to cents. -/
noncomputable def liquidationYesThenNo (r b user_yes user_no : ℝ) : ℝ :=
  let yes_proceeds :=
    _round_cents (-(b * Real.log ((r * Real.exp (-user_yes / b) + 1) / (r + 1)) * 100))
  let r2 := r * Real.exp (-user_yes / b)
  let no_proceeds :=
    _round_cents (-(b * Real.log ((r2 + Real.exp (-user_no / b)) / (r2 + 1)) * 100))
  _round_cents (yes_proceeds + no_proceeds)

/-! ### C4: liquidation order and two-stage rounding -/

/-- C4: both liquidation implementations follow the claimed structure: sell
all Yes shares at the current price ratio r (partial proceeds rounded to
the nearest cent), update r by the factor exp(-userYes/b), sell all No
shares against the updated r (rounded to the nearest cent again), then
round the sum to cents once more.  The exchange version derives r from the
market's yes_price directly; the computation.py version clamps the implied
probability into [1e-9, 1 - 1e-9] first.  (The cent-level difference from
the "No-then-Yes" order can only come from the two-stage rounding: the
unrounded totals are path-independent.) -/
theorem C4_liquidation_structure :
    ∀ yes_price p b uy un : ℝ, 0 < b → 0 < uy → 0 < un →
      Market.simulate_liquidation_proceeds yes_price b un uy =
        liquidationYesThenNo ((yes_price / 100) / (1 - yes_price / 100)) b uy un ∧
      computation.simulate_liquidation_proceeds p b uy un =
        liquidationYesThenNo
          ((max 1e-9 (min (1 - 1e-9) (p / 100))) /
            (1 - max 1e-9 (min (1 - 1e-9) (p / 100)))) b uy un := by
  intro yes_price p b uy un hb huy hun
  constructor
  · unfold Market.simulate_liquidation_proceeds liquidationYesThenNo
    dsimp only
    rw [if_pos (ne_of_gt huy)]
    dsimp only
    rw [if_pos (ne_of_gt hun)]
  · unfold computation.simulate_liquidation_proceeds
      computation._sell_yes_proceeds_and_update_r
      computation._sell_no_proceeds_and_update_r liquidationYesThenNo
    rw [if_neg (not_le.mpr hb)]
    dsimp only
    rw [max_eq_right huy.le, max_eq_right hun.le]
    rw [if_neg (by push_neg; exact ⟨huy, hb⟩)]
    dsimp only
    rw [if_neg (by push_neg; exact ⟨hun, hb⟩)]

theorem C4_witness :
    (0 : ℝ) < 1 ∧
    Market.simulate_liquidation_proceeds 50 1 1 1 =
      liquidationYesThenNo (((50 : ℝ) / 100) / (1 - 50 / 100)) 1 1 1 ∧
    computation.simulate_liquidation_proceeds 50 1 1 1 =
      liquidationYesThenNo ((max 1e-9 (min (1 - 1e-9) ((50 : ℝ) / 100))) /
        (1 - max 1e-9 (min (1 - 1e-9) ((50 : ℝ) / 100)))) 1 1 1 :=
  ⟨one_pos,
   (C4_liquidation_structure 50 50 1 1 1 one_pos one_pos one_pos).1,
   (C4_liquidation_structure 50 50 1 1 1 one_pos one_pos one_pos).2⟩

/-- Rounding to cents sends any value ≤ -1/200 to a value ≤ -1/100. -/
theorem _round_cents_le_neg {x : ℝ} (h : x ≤ -(1 / 200)) :
    _round_cents x ≤ -(1 / 100) := by
  unfold _round_cents
  rw [if_neg (by linarith)]
  have h1 : (1 : ℝ) ≤ -x * 100 + 1 / 2 := by linarith
  have h2 : (1 : ℤ) ≤ ⌊-x * 100 + 1 / 2⌋ := Int.le_floor.mpr (by exact_mod_cast h1)
  have h3 : (1 : ℝ) ≤ ((⌊-x * 100 + 1 / 2⌋ : ℤ) : ℝ) := by exact_mod_cast h2
  linarith

/-- The liquidation function of market/exchange.py has no quantity guard:
a negative Yes position is truthy in Python and gets "sold".  At a 50%
price with b = 1 and no No shares, any position userYes ≤ -1 yields
strictly negative proceeds. -/
theorem exchange_liquidation_negative (uy : ℝ) (huy : uy ≤ -1) :
    Market.simulate_liquidation_proceeds 50 1 0 uy < 0 := by
  have huy0 : uy ≠ 0 := by intro h; rw [h] at huy; norm_num at huy
  unfold Market.simulate_liquidation_proceeds
  try dsimp only
  rw [if_pos huy0]
  try dsimp only
  rw [if_neg (by norm_num)]
  try dsimp only
  rw [show ((50 : ℝ) / 100) / (1 - 50 / 100) = 1 by norm_num]
  rw [div_one, one_mul, one_mul]
  have hexp : (27 / 10 : ℝ) ≤ Real.exp (-uy) := by
    have h1 : (1 : ℝ) ≤ -uy := by linarith
    have h2 : Real.exp 1 ≤ Real.exp (-uy) := Real.exp_le_exp.mpr h1
    have h3 := Real.exp_one_gt_d9
    linarith
  have ht0 : (0 : ℝ) < (Real.exp (-uy) + 1) / (1 + 1) := by positivity
  have ht : (37 / 20 : ℝ) ≤ (Real.exp (-uy) + 1) / (1 + 1) := by
    rw [le_div_iff₀ (by norm_num)]
    linarith
  have hinv : ((Real.exp (-uy) + 1) / (1 + 1))⁻¹ ≤ 20 / 37 := by
    have h4 := one_div_le_one_div_of_le (show (0 : ℝ) < 37 / 20 by norm_num) ht
    rw [one_div, one_div] at h4
    have h5 : ((37 : ℝ) / 20)⁻¹ = 20 / 37 := by norm_num
    linarith [h5 ▸ h4]
  have hlog : (17 / 37 : ℝ) ≤ Real.log ((Real.exp (-uy) + 1) / (1 + 1)) := by
    have hlb := Real.log_le_sub_one_of_pos (inv_pos.mpr ht0)
    rw [Real.log_inv] at hlb
    linarith
  have hA : -(Real.log ((Real.exp (-uy) + 1) / (1 + 1)) * 100) ≤ -(1 / 200) := by
    linarith
  have hB := _round_cents_le_neg hA
  have hC := _round_cents_le_neg (le_trans hB (by norm_num))
  linarith

/-! ### C5: degenerate pricing inputs -/

/-- C5: the guards the claim describes exist only in computation.py:
there, non-positive liquidity or quantity makes calculate_trade_cost
return exactly 0, and non-positive liquidity, or non-positive quantities
on both sides, make simulate_liquidation_proceeds return exactly 0 — all
without error and never a negative or undefined value; the clamped
market-implied probability is always strictly positive (≥ 1e-9), so the
claim's third degenerate class ("non-positive probability after clamping")
is empty.  But the liquidation function the claim cites,
Market.simulate_liquidation_proceeds of market/exchange.py, has NO such
guards: a negative (truthy) Yes position is "sold", producing strictly
negative proceeds (conjunct 5), contradicting "never returns a negative
value". -/
theorem C5_degenerate_inputs :
    (∀ (p b q : ℝ) (st : computation.ShareType),
      b ≤ 0 ∨ q ≤ 0 → computation.calculate_trade_cost p b q st = 0) ∧
    (∀ p b uy un : ℝ, b ≤ 0 →
      computation.simulate_liquidation_proceeds p b uy un = 0) ∧
    (∀ p b uy un : ℝ, 0 < b → uy ≤ 0 → un ≤ 0 →
      computation.simulate_liquidation_proceeds p b uy un = 0) ∧
    (∀ p : ℝ, 0 < max 1e-9 (min (1 - 1e-9) (p / 100))) ∧
    (∀ uy : ℝ, uy ≤ -1 → Market.simulate_liquidation_proceeds 50 1 0 uy < 0) := by
  refine ⟨?_, ?_, ?_, ?_, ?_⟩
  · intro p b q st h
    unfold computation.calculate_trade_cost
    rw [if_pos h]
  · intro p b uy un h
    unfold computation.simulate_liquidation_proceeds
    rw [if_pos h]
  · intro p b uy un hb huy hun
    unfold computation.simulate_liquidation_proceeds
      computation._sell_yes_proceeds_and_update_r
      computation._sell_no_proceeds_and_update_r
    rw [if_neg (not_le.mpr hb)]
    dsimp only
    rw [max_eq_left huy, max_eq_left hun]
    rw [if_pos (Or.inl le_rfl)]
    dsimp only
    rw [if_pos (Or.inl le_rfl)]
    dsimp only
    rw [add_zero, _round_cents_zero]
  · intro p
    exact lt_of_lt_of_le (by norm_num) (le_max_left _ _)
  · intro uy huy
    exact exchange_liquidation_negative uy huy

/-- Counterexample to C5 as stated: the cited exchange.py liquidation
function returns strictly negative proceeds for a position of -1 Yes
shares at a 50% price with liquidity 1, so it is not guarded against
degenerate (negative) quantities. -/
theorem C5_counterexample :
    Market.simulate_liquidation_proceeds 50 1 0 (-1) < 0 :=
  exchange_liquidation_negative (-1) (by norm_num)

theorem C5_witness :
    ((-1 : ℝ) ≤ 0 ∨ (5 : ℝ) ≤ 0) ∧
    computation.calculate_trade_cost 50 (-1) 5 computation.ShareType.Yes = 0 ∧
    computation.simulate_liquidation_proceeds 50 (-1) 3 4 = 0 ∧
    computation.simulate_liquidation_proceeds 50 1 0 (-2) = 0 ∧
    ((-2 : ℝ) ≤ -1 ∧ Market.simulate_liquidation_proceeds 50 1 0 (-2) < 0) :=
  ⟨Or.inl (by norm_num),
   C5_degenerate_inputs.1 50 (-1) 5 computation.ShareType.Yes (Or.inl (by norm_num)),
   C5_degenerate_inputs.2.1 50 (-1) 3 4 (by norm_num),
   C5_degenerate_inputs.2.2.1 50 1 0 (-2) one_pos le_rfl (by norm_num),
   by norm_num,
   C5_degenerate_inputs.2.2.2.2 (-2) (by norm_num)⟩
